import Mathlib

/-!
Verification of the blank_slate simulation core against its specification.

The definitions below are shallow embeddings of the Python sources:
  * `Metrics`   — src/simulation/metrics.py (`MetricsAggregator`, `summarize_scenario`)
  * `Runner`    — src/simulation/experiment_runner.py (event stream shape of
                  `run_single_scenario`, `_write_json`)
  * `Nav`       — src/simulation/nav_and_pois.py (`astar`, `snap_to_walkable`)
  * `Editor`    — src/simulation/environment_editor.py (`apply_scenario_to_assets`)

Machine floats are modelled by exact rationals; numpy arrays by lists or by
functions with explicit dimensions.
-/

namespace Metrics

/-- State of `MetricsAggregator` (src/simulation/metrics.py).
`bins` and `duration_s` are stored after the `max` coercions performed by
`__init__`; the six per-bin vectors are lists of length `bins`.
`cat_time` is the insertion-ordered dict `cat -> (sum_time, count)`. -/
structure Agg where
  exp_id : String
  env_key : String
  bins : ℕ
  duration_s : ℚ
  decisions : List ℕ
  arrivals : List ℕ
  walk_cells : List ℚ
  travel_time : List ℚ
  spend : List ℚ
  agent_count : ℕ
  cat_time : List (String × (ℚ × ℕ))
  deriving Repr, DecidableEq

/-- `MetricsAggregator.__init__`: coerces `bins` to `max(1, bins)` and
`duration_s` to `max(1.0, duration_s)`, then allocates the per-bin vectors. -/
def Agg.init (exp_id env_key : String) (bins : ℤ) (duration_s : ℚ) : Agg :=
  let b : ℕ := (max 1 bins).toNat
  { exp_id := exp_id
    env_key := env_key
    bins := b
    duration_s := max 1 duration_s
    decisions := List.replicate b 0
    arrivals := List.replicate b 0
    walk_cells := List.replicate b 0
    travel_time := List.replicate b 0
    spend := List.replicate b 0
    agent_count := 0
    cat_time := [] }

/-- `self.bin_w = self.duration_s / float(self.bins)`. -/
def Agg.binW (a : Agg) : ℚ := a.duration_s / (a.bins : ℚ)

/-- `_bin_idx`: `idx = int(math.floor(max(0.0, t_s) / self.bin_w))`, then
clamped to `self.bins - 1` when `idx >= self.bins`. -/
def Agg.binIdx (a : Agg) (t : ℚ) : ℕ :=
  min (a.bins - 1) (Int.toNat ⌊max 0 t / a.binW⌋)

/-- `start_run`: `self.agent_count = max(1, int(agent_count))`. -/
def Agg.startRun (a : Agg) (agent_count : ℤ) : Agg :=
  { a with agent_count := (max 1 agent_count).toNat }

/-- `xs[i] += 1` on a Python list (natural-valued counters). -/
def bumpNat (l : List ℕ) (i : ℕ) : List ℕ := l.set i (l.getD i 0 + 1)

/-- `xs[i] += v` on a Python list (float-valued accumulators). -/
def addAt (l : List ℚ) (i : ℕ) (v : ℚ) : List ℚ := l.set i (l.getD i 0 + v)

/-- `record_decision`: `self.decisions[self._bin_idx(t_s)] += 1`. -/
def Agg.recordDecision (a : Agg) (t : ℚ) : Agg :=
  { a with decisions := bumpNat a.decisions (a.binIdx t) }

/-- Insertion-ordered dict update for `self.cat_time[category]`. -/
def catTimeAdd (m : List (String × (ℚ × ℕ))) (cat : String) (tt : ℚ) :
    List (String × (ℚ × ℕ)) :=
  match m with
  | [] => [(cat, (tt, 1))]
  | (k, (s, c)) :: rest =>
    if k = cat then (k, (s + tt, c + 1)) :: rest
    else (k, (s, c)) :: catTimeAdd rest cat tt

/-- `record_arrival`: bumps `arrivals`, accumulates `walk_cells` and
`travel_time` at the bin of `t_s`, and updates the category timing cache. -/
def Agg.recordArrival (a : Agg) (cat : String) (pathLen : ℚ) (travel : ℚ)
    (t : ℚ) : Agg :=
  let bi := a.binIdx t
  { a with
    arrivals := bumpNat a.arrivals bi
    walk_cells := addAt a.walk_cells bi pathLen
    travel_time := addAt a.travel_time bi travel
    cat_time := catTimeAdd a.cat_time cat travel }

/-- `record_purchase`: `self.spend[self._bin_idx(t_s)] += float(amount)`. -/
def Agg.recordPurchase (a : Agg) (amount : ℚ) (t : ℚ) : Agg :=
  { a with spend := addAt a.spend (a.binIdx t) amount }

/-- `_avg_cat_time`: per-category average travel time, skipping empty counts. -/
def Agg.avgCatTime (a : Agg) : List (String × ℚ) :=
  (a.cat_time.filter (fun kv => 0 < kv.2.2)).map
    (fun kv => (kv.1, kv.2.1 / (kv.2.2 : ℚ)))

/-- The three series produced by `summarize_scenario` (y-values only;
`_series` merely pairs each value with its index). -/
structure Series where
  efficiency : List ℚ
  cost : List ℚ
  time_saved : List ℚ
  deriving Repr, DecidableEq

/-- `summarize_scenario`.  Returns `none` when `self.agent_count == 0`, in
which case the Python loop raises `ZeroDivisionError` at
`successes = arrivals[i] / agent_count`.  `msqrt` abstracts `math.sqrt`,
which is only used in the no-baseline cost branch. -/
def Agg.summarize (a : Agg) (baseline : Option Agg) (msqrt : ℚ → ℚ) :
    Option Series :=
  if a.agent_count = 0 then none else
  let agF : ℚ := (a.agent_count : ℚ)
  -- dist_scale = max(200.0, sum(walk_cells)/float(agent_count or 1) or 200.0)
  let q : ℚ := a.walk_cells.sum / ((if a.agent_count = 0 then 1 else a.agent_count : ℕ) : ℚ)
  let dist_scale : ℚ := max 200 (if q = 0 then 200 else q)
  let baseAvg : ℚ :=
    match baseline with
    | none => 0
    | some b =>
      let avgs := b.avgCatTime
      if avgs.isEmpty then 0
      else (avgs.map Prod.snd).sum / (avgs.length : ℚ)
  let eff := (List.range a.bins).map (fun i =>
    let successes := (a.arrivals.getD i 0 : ℚ) / agF
    let penalty := (5 / 100 : ℚ) * (a.walk_cells.getD i 0 / (agF * dist_scale))
    max 0 (min 1 (successes - penalty)) * 100)
  let cost := (List.range a.bins).map (fun i =>
    match baseline with
    | some b =>
      let bq : ℚ := max (1 / 1000000) (b.spend.getD i 0)
      let s : ℚ := a.spend.getD i 0
      100 * (bq - s) / bq
    | none =>
      let s : ℚ := a.spend.getD i 0
      min 100 (msqrt (s + 1) * 10))
  let ts := (List.range a.bins).map (fun i =>
    match baseline with
    | some _ =>
      if 0 < a.arrivals.getD i 0 then
        let avgS := a.travel_time.getD i 0 / max 1 (a.arrivals.getD i 0 : ℚ)
        max 0 (baseAvg - avgS) * 10
      else 0
    | none => 0)
  some { efficiency := eff, cost := cost, time_saved := ts }

/-- Well-formedness maintained by the aggregator API: the six vectors keep
length `bins`, and the `__init__` coercions make `bins ≥ 1`, `duration ≥ 1`. -/
def Agg.WF (a : Agg) : Prop :=
  1 ≤ a.bins ∧ 1 ≤ a.duration_s ∧
  a.decisions.length = a.bins ∧ a.arrivals.length = a.bins ∧
  a.walk_cells.length = a.bins ∧ a.travel_time.length = a.bins ∧
  a.spend.length = a.bins

/-- Outcome of one successful travel in the `run_single_scenario` loop
(src/simulation/experiment_runner.py): a positive `travel` time, a path
length, and an optional purchase amount. -/
structure Arr where
  travel : ℚ
  pathLen : ℚ
  purchase : Option ℚ
  deriving Repr, DecidableEq

/-- One recorded decision of the simulation loop: a category, the elapsed
time of the decision, and the optional arrival that follows it. -/
structure Ev where
  cat : String
  t : ℚ
  arrival : Option Arr
  deriving Repr, DecidableEq

/-- The event bookkeeping of `run_single_scenario` for one decision:
`record_decision(cat, elapsed)`, then on success
`record_arrival(..., elapsed + travel_time)` and possibly
`record_purchase(..., elapsed + travel_time)`. -/
def replay (a : Agg) (e : Ev) : Agg :=
  let a1 := a.recordDecision e.t
  match e.arrival with
  | none => a1
  | some ar =>
    let a2 := a1.recordArrival e.cat ar.pathLen ar.travel (e.t + ar.travel)
    match ar.purchase with
    | none => a2
    | some amt => a2.recordPurchase amt (e.t + ar.travel)

/-- Replaying the loop's whole recorded event stream. -/
def runTrace (a : Agg) (tr : List Ev) : Agg := tr.foldl replay a

/-- Prefix sum of a per-bin counter vector over bins `0..i`. -/
def psum (l : List ℕ) (i : ℕ) : ℕ := ∑ j ∈ Finset.range (i + 1), l.getD j 0

/-- Concrete aggregator used to exercise `summarize_scenario`. -/
def c5agg : Agg := (Agg.init "e" "env1" 2 10).startRun 1

/-- Concrete aggregator for the default runner configuration
(25 bins, 120 s). -/
def c4agg : Agg := (Agg.init "e" "env1" 25 120).startRun 1

/-- One decision at 4.0 s whose arrival lands at 9.0 s, in the next bin. -/
def c4trace : List Ev := [⟨"cafe", 4, some ⟨5, 30, none⟩⟩]

/-- Concrete aggregator with one recorded arrival, for witnesses. -/
def c3agg : Agg :=
  (((Agg.init "w" "env2" 3 12).startRun 2).recordDecision 1).recordArrival
    "cafe" 30 2 3

end Metrics

namespace Runner

/-- A filesystem operation, at the granularity relevant to write atomicity:
directory creation, opening a path for writing (`open(path, "w")`, which
truncates it), streaming data into an open file, closing it, and renaming. -/
inductive FsOp where
  | makedirs (path : String)
  | openWrite (path : String)
  | writeChunk (path : String) (data : String)
  | closeFile (path : String)
  | rename (src dst : String)
  deriving Repr, DecidableEq

def FsOp.isRename : FsOp → Bool
  | .rename _ _ => true
  | _ => false

/-- The filesystem operations performed by `_write_json`
(src/simulation/experiment_runner.py): `os.makedirs(os.path.dirname(path),
exist_ok=True)`, then `open(path, "w")` and `json.dump(obj, f, indent=2)`.
The serialized document is abstracted as `payload`; `dirname` is
`os.path.dirname(path)`. -/
def writeJsonOps (path dirname payload : String) : List FsOp :=
  [.makedirs dirname, .openWrite path, .writeChunk path payload,
   .closeFile path]

/-- The filesystem operations performed by `stream_update`
(src/simulation/metrics.py): after building the analytics document it runs
`os.makedirs(os.path.dirname(root_output_path), exist_ok=True)`, then
`open(root_output_path, 'w')` and `json.dump(data, f, indent=2)`. -/
def streamUpdateOps (path dirname payload : String) : List FsOp :=
  [.makedirs dirname, .openWrite path, .writeChunk path payload,
   .closeFile path]

/-- A write to `dst` is atomic in the temp-file-plus-rename sense when the
destination is never opened for (truncating) writing and instead receives
its content through a rename from some other path. -/
def AtomicWrite (dst : String) (ops : List FsOp) : Prop :=
  ∃ tmp, tmp ≠ dst ∧ FsOp.rename tmp dst ∈ ops ∧ FsOp.openWrite dst ∉ ops

end Runner

namespace Nav

/-- Effective stop index of the Python slice `xs[: s]` on a sequence of
length `n`: a negative stop wraps around by `n`, and the result is clamped
to `[0, n]`. -/
def pyStop (n : ℕ) (s : ℤ) : ℕ :=
  if s < 0 then (max 0 (s + n)).toNat else min n s.toNat

/-- First column `x ∈ [xs, xs + n)` with `w y x = 1` (the column scan of
`np.argwhere(sub == 1)[0]`, which is row-major). -/
def findCol (w : ℕ → ℕ → ℕ) (y xs : ℕ) : ℕ → Option ℕ
  | 0 => none
  | n + 1 => if w y xs = 1 then some xs else findCol w y (xs + 1) n

/-- First cell of the box `[ys, ys + n) × [xs, xs + xn)` with `w y x = 1`,
scanning rows first (row-major order of `np.argwhere`). -/
def findRow (w : ℕ → ℕ → ℕ) (xs xn ys : ℕ) : ℕ → Option (ℕ × ℕ)
  | 0 => none
  | n + 1 =>
    match findCol w ys xs xn with
    | some x => some (ys, x)
    | none => findRow w xs xn (ys + 1) n

/-- One iteration of the `snap_to_walkable` radius loop
(src/simulation/nav_and_pois.py): clip the box
`[iy-r, iy+r] × [ix-r, ix+r]` with `max(0, ·)` / `min(H-1, ·)`, slice with
Python semantics, and return the first walkable cell of the slice.  The
slice start `max(0, iy-r)` is non-negative, so only the stop index can
wrap. -/
def boxFirst (w : ℕ → ℕ → ℕ) (H W : ℕ) (iy ix : ℤ) (r : ℕ) :
    Option (ℕ × ℕ) :=
  let y0 : ℤ := max 0 (iy - r)
  let y1 : ℤ := min ((H : ℤ) - 1) (iy + r)
  let x0 : ℤ := max 0 (ix - r)
  let x1 : ℤ := min ((W : ℤ) - 1) (ix + r)
  let ys := y0.toNat
  let ye := pyStop H (y1 + 1)
  let xs := x0.toNat
  let xe := pyStop W (x1 + 1)
  findRow w xs (xe - xs) ys (ye - ys)

/-- The radius loop `for r in range(1, max_r + 1)`, started at radius `r`
with `k` radii left. -/
def snapLoop (w : ℕ → ℕ → ℕ) (H W : ℕ) (iy ix : ℤ) : ℕ → ℕ → Option (ℤ × ℤ)
  | _, 0 => none
  | r, k + 1 =>
    match boxFirst w H W iy ix r with
    | some p => some ((p.1 : ℤ), (p.2 : ℤ))
    | none => snapLoop w H W iy ix (r + 1) k

/-- `snap_to_walkable(walkable, iy, ix, max_r)`: returns `(iy, ix)` when in
bounds and already walkable, otherwise searches growing clipped boxes of
radius `1..max_r` and returns the first walkable cell found, or `none`. -/
def snap_to_walkable (w : ℕ → ℕ → ℕ) (H W : ℕ) (iy ix : ℤ) (maxR : ℕ) :
    Option (ℤ × ℤ) :=
  if 0 ≤ ix ∧ ix < (W : ℤ) ∧ 0 ≤ iy ∧ iy < (H : ℤ) ∧
      w iy.toNat ix.toNat = 1
  then some (iy, ix)
  else snapLoop w H W iy ix 1 maxR

/-- In-bounds predicate for a (possibly negative) grid coordinate pair. -/
def inB (H W : ℕ) (p : ℤ × ℤ) : Prop :=
  0 ≤ p.1 ∧ p.1 < (H : ℤ) ∧ 0 ≤ p.2 ∧ p.2 < (W : ℤ)

/-- Walkability of a cell given by (in-bounds) integer coordinates. -/
def walkAt (w : ℕ → ℕ → ℕ) (p : ℤ × ℤ) : Prop := w p.1.toNat p.2.toNat = 1

/-- Chebyshev distance between two coordinate pairs. -/
def cheb (p q : ℤ × ℤ) : ℕ := max (p.1 - q.1).natAbs (p.2 - q.2).natAbs

/-- A 5 × 1 grid whose only walkable cell is row 3. -/
def c2walk : ℕ → ℕ → ℕ := fun y _ => if y = 3 then 1 else 0

end Nav

namespace Editor

/-- JSON values, the shape of entries of `pois.json`. -/
inductive Jv where
  | null
  | str (s : String)
  | num (q : ℚ)
  | jbool (b : Bool)
  | arr (xs : List Jv)
  | obj (kvs : List (String × Jv))
  deriving Repr

mutual

/-- Structural equality of JSON values (Python `==` on parsed JSON). -/
def Jv.beq : Jv → Jv → Bool
  | .null, .null => true
  | .str a, .str b => a == b
  | .num a, .num b => a == b
  | .jbool a, .jbool b => a == b
  | .arr xs, .arr ys => beqArr xs ys
  | .obj xs, .obj ys => beqObjList xs ys
  | _, _ => false

def beqArr : List Jv → List Jv → Bool
  | [], [] => true
  | x :: xs, y :: ys => Jv.beq x y && beqArr xs ys
  | _, _ => false

def beqObjList : List (String × Jv) → List (String × Jv) → Bool
  | [], [] => true
  | (k1, v1) :: xs, (k2, v2) :: ys =>
    k1 == k2 && Jv.beq v1 v2 && beqObjList xs ys
  | _, _ => false

end

/-- `POIAnchor` (src/simulation/scenario_models.py). -/
structure POIAnchor where
  name : String
  dx : ℤ
  dy : ℤ

/-- `POIDef` (src/simulation/scenario_models.py): absolute `(iy, ix)` or an
anchor with offsets; the pydantic validator requires one of the two. -/
structure POIDef where
  type_ : String
  name : Option String
  iy : Option ℤ
  ix : Option ℤ
  anchor : Option POIAnchor
  attrs : List (String × Jv)

/-- `POIUpdate`: a field matcher and the fields to set. -/
structure POIUpdate where
  matchOn : List (String × Jv)
  setTo : List (String × Jv)

/-- `Scenario` (the fields `apply_scenario_to_assets` reads). -/
structure Scenario where
  id : String
  title : String
  poi_add : List POIDef
  poi_update : List POIUpdate

/-- The four copied grids plus their common shape (the baseline assets of
src/simulation/environment_editor.py). -/
structure Grids where
  semantic : ℕ → ℕ → ℕ
  walkable : ℕ → ℕ → ℕ
  cost : ℕ → ℕ → ℕ
  feature_id : ℕ → ℕ → ℕ
  H : ℕ
  W : ℕ

/-- `_resolve_anchor`: `"center"` and `"frontage_center"` resolve to the map
center, and so does the fallback for every other name. -/
def resolveAnchor (nm : String) (H W : ℕ) : ℕ × ℕ :=
  if nm = "center" ∨ nm = "frontage_center" then (H / 2, W / 2)
  else (H / 2, W / 2)

/-- `_place_poi`: absolute coordinates when both are present, otherwise the
anchor clamped into bounds; `none` models the `assert` failing when neither
is given. -/
def placePoi (pd : POIDef) (H W : ℕ) : Option (ℤ × ℤ) :=
  match pd.iy, pd.ix with
  | some iy, some ix => some (iy, ix)
  | _, _ =>
    match pd.anchor with
    | none => none
    | some a =>
      let c := resolveAnchor a.name H W
      some (max 0 (min ((H : ℤ) - 1) ((c.1 : ℤ) + a.dy)),
            max 0 (min ((W : ℤ) - 1) ((c.2 : ℤ) + a.dx)))

/-- The snap inlined in `apply_scenario_to_assets`: when the placed cell is
out of bounds or non-walkable, search boxes of radius `1..20` (the same
clipped-box `argwhere` loop as `snap_to_walkable`, hence `Nav.snapLoop`)
and keep the raw cell when nothing is found. -/
def editorSnap (w : ℕ → ℕ → ℕ) (H W : ℕ) (iy ix : ℤ) : ℤ × ℤ :=
  if 0 ≤ ix ∧ ix < (W : ℤ) ∧ 0 ≤ iy ∧ iy < (H : ℤ) ∧
      ¬(w iy.toNat ix.toNat = 0)
  then (iy, ix)
  else
    match Nav.snapLoop w H W iy ix 1 20 with
    | some p => p
    | none => (iy, ix)

/-- The POI dict appended for a `poi_add` entry: raw and snapped coordinates
are both the post-snap cell, `tags` are the attrs, and `snapped` is always
a `{iy, ix}` object. -/
def mkAddedPoi (pd : POIDef) (iy ix : ℤ) : Jv :=
  .obj [("type", .str pd.type_),
        ("iy", .num (iy : ℚ)), ("ix", .num (ix : ℚ)),
        ("name", match pd.name with | some n => .str n | none => .null),
        ("tags", .obj pd.attrs),
        ("snapped", .obj [("iy", .num (iy : ℚ)), ("ix", .num (ix : ℚ))])]

/-- The list of POIs appended by the `poi_add` loop, in order. -/
def addedPois (w : ℕ → ℕ → ℕ) (H W : ℕ) : List POIDef → Option (List Jv)
  | [] => some []
  | pd :: rest =>
    match placePoi pd H W with
    | none => none
    | some c =>
      let q := editorSnap w H W c.1 c.2
      match addedPois w H W rest with
      | none => none
      | some out => some (mkAddedPoi pd q.1 q.2 :: out)

/-- Python `p.get(k)`: `None` (JSON null) when the key is missing. -/
def pyGet (kvs : List (String × Jv)) (k : String) : Jv :=
  match kvs.find? (fun kv => kv.1 == k) with
  | some kv => kv.2
  | none => .null

/-- Python `d[k] = v`: replace in place, else append (insertion order). -/
def objSet (kvs : List (String × Jv)) (k : String) (v : Jv) :
    List (String × Jv) :=
  if kvs.any (fun kv => kv.1 == k)
  then kvs.map (fun kv => if kv.1 == k then (kv.1, v) else kv)
  else kvs ++ [(k, v)]

/-- Python `base.update(upd)` on dicts. -/
def dictUpdate (base upd : List (String × Jv)) : List (String × Jv) :=
  upd.foldl (fun acc kv => objSet acc kv.1 kv.2) base

/-- `_matches`: every matcher key must equal the POI's value at that key. -/
def matchesPoi (kvs : List (String × Jv)) (m : List (String × Jv)) : Bool :=
  m.all (fun kv => Jv.beq (pyGet kvs kv.1) kv.2)

/-- The `upd.set` loop: `tags` dicts are merged, other keys overwritten. -/
def applySet (kvs : List (String × Jv)) (s : List (String × Jv)) :
    List (String × Jv) :=
  s.foldl (fun acc kv =>
    match kv.2 with
    | .obj t =>
      if kv.1 = "tags" then
        let tags := match pyGet acc "tags" with | .obj t0 => t0 | _ => []
        objSet acc "tags" (.obj (dictUpdate tags t))
      else objSet acc kv.1 kv.2
    | _ => objSet acc kv.1 kv.2) kvs

/-- One `POIUpdate` applied to one POI (non-dict entries untouched). -/
def applyUpdate (u : POIUpdate) (p : Jv) : Jv :=
  match p with
  | .obj kvs =>
    if matchesPoi kvs u.matchOn then .obj (applySet kvs u.setTo) else p
  | _ => p

/-- The `poi_update` loop over the whole POI list. -/
def applyUpdates (pois : List Jv) (us : List POIUpdate) : List Jv :=
  us.foldl (fun acc u => acc.map (applyUpdate u)) pois

/-- `apply_scenario_to_assets`: copy the four grids unchanged, start from
the baseline POI list, append the `poi_add` entries (with snapping), then
apply the `poi_update` entries.  `none` models the `assert` in
`_place_poi`. -/
def apply_scenario_to_assets (g : Grids) (baselinePois : List Jv)
    (sc : Scenario) : Option (Grids × List Jv) :=
  match addedPois g.walkable g.H g.W sc.poi_add with
  | none => none
  | some added => some (g, applyUpdates (baselinePois ++ added) sc.poi_update)

/-- The `snapped` field of a POI dict. -/
def poiSnapped (p : Jv) : Jv :=
  match p with
  | .obj kvs => pyGet kvs "snapped"
  | _ => .null

/-- The spec's post-snap invariant: `snapped` present and walkable, or
null. -/
def SnapInv (w : ℕ → ℕ → ℕ) (p : Jv) : Prop :=
  (∃ sy sx : ℤ,
    poiSnapped p = .obj [("iy", .num (sy : ℚ)), ("ix", .num (sx : ℚ))] ∧
    w sy.toNat sx.toNat = 1) ∨
  poiSnapped p = .null

/-- A 1 × 1 grid with no walkable cell. -/
def g6 : Grids := ⟨fun _ _ => 0, fun _ _ => 0, fun _ _ => 0, fun _ _ => 0,
  1, 1⟩

/-- A `poi_add` entry at the (non-walkable) cell `(0, 0)`. -/
def pd6 : POIDef := ⟨"cafe", none, some 0, some 0, none, []⟩

/-- A scenario adding just `pd6`. -/
def sc6 : Scenario := ⟨"h_bad", "t", [pd6], []⟩

/-- The POI the editor appends for `pd6` on `g6`. -/
def p6val : Jv := mkAddedPoi pd6 0 0

/-- All-walkable 2 × 2 grids, for witnesses. -/
def g7 : Grids := ⟨fun _ _ => 2, fun _ _ => 1, fun _ _ => 1, fun _ _ => 0,
  2, 2⟩

/-- The empty scenario diff. -/
def sc7 : Scenario := ⟨"s", "t", [], []⟩

/-- A small baseline POI list. -/
def pois7 : List Jv :=
  [.obj [("type", .str "grocery"), ("iy", .num 1), ("ix", .num 1),
         ("snapped", .null)]]

end Editor

namespace Nav

/-!
The A* of src/simulation/nav_and_pois.py.  All scores are exact and kept in
units of `10^-11`, so that the diagonal step `DIAG = 1.41421356237` becomes
the integer `141421356237` and a straight step becomes `10^11`: the score
arithmetic of the source (sums of `step * cost` and the octile heuristic)
is linear, so this rescaling is order- and control-flow-preserving, and
every score is a natural number.
-/

/-- One grid step, in `10^-11` units. -/
def SCALE : ℕ := 100000000000

/-- `DIAG = 1.41421356237`, in `10^-11` units. -/
def DIAGS : ℕ := 141421356237

/-- `NEI8`, in source order. -/
def NEI8 : List (ℤ × ℤ) :=
  [(-1, -1), (-1, 0), (-1, 1), (0, -1), (0, 1), (1, -1), (1, 0), (1, 1)]

/-- A grid cell `(y, x)`. -/
abbrev Cell := ℕ × ℕ

/-- An open-queue entry: the tuple `(f, g, y, x)` pushed by `heappush`. -/
structure Entry where
  f : ℕ
  g : ℕ
  y : ℕ
  x : ℕ
  deriving Repr, DecidableEq

/-- Lexicographic comparison of the tuples `(f, g, y, x)` — the order under
which Python's `heapq` pops the smallest entry. -/
def entR (a b : Entry) : Prop :=
  a.f < b.f ∨ (a.f = b.f ∧ (a.g < b.g ∨ (a.g = b.g ∧
    (a.y < b.y ∨ (a.y = b.y ∧ a.x ≤ b.x)))))

instance entR.decide (a b : Entry) : Decidable (entR a b) := by
  unfold entR
  infer_instance

/-- Pop the smallest entry by the tuple order (the value `heappop`
returns); the queue keeps the remaining entries as a multiset. -/
def popMin (q : List Entry) : Option (Entry × List Entry) :=
  match q with
  | [] => none
  | e :: es =>
    let m := (e :: es).foldl (fun a b => if entR a b then a else b) e
    some (m, q.erase m)

/-- The inputs of `astar` after the bounds checks: the grids, their shape,
and the validated start and goal cells. -/
structure Ctx where
  cost : ℕ → ℕ → ℕ
  walk : ℕ → ℕ → ℕ
  H : ℕ
  W : ℕ
  sy : ℕ
  sx : ℕ
  gy : ℕ
  gx : ℕ

/-- The octile heuristic `h(y, x) = max(dy, dx) + (DIAG - 1) * min(dy, dx)`
in `10^-11` units. -/
def hOct (c : Ctx) (y x : ℕ) : ℕ :=
  let dy := max y c.gy - min y c.gy
  let dx := max x c.gx - min x c.gx
  SCALE * max dy dx + (DIAGS - SCALE) * min dy dx

/-- `step = DIAG if dy and dx else 1.0`, in `10^-11` units. -/
def stepS (d : ℤ × ℤ) : ℕ := if d.1 ≠ 0 ∧ d.2 ≠ 0 then DIAGS else SCALE

/-- The mutable state of the search: `gscore` (`none` = `np.inf`), the
parent arrays `py`/`px` (`none` = `-1`), and the open queue. -/
structure AState where
  gs : Cell → Option ℕ
  par : Cell → Option Cell
  queue : List Entry

/-- `ng < gscore[ny, nx]`, where an unset score is `np.inf`. -/
def ltInf (v : ℕ) (o : Option ℕ) : Prop :=
  match o with
  | none => True
  | some w => v < w

instance ltInf.decide (v : ℕ) (o : Option ℕ) : Decidable (ltInf v o) := by
  unfold ltInf
  cases o <;> infer_instance

/-- The neighbor cell reached from `p` by offset `d` (callers ensure the
offset lands in bounds). -/
def nbCell (p : Cell) (d : ℤ × ℤ) : Cell :=
  (((p.1 : ℤ) + d.1).toNat, ((p.2 : ℤ) + d.2).toNat)

/-- The source's bounds check `0 <= nx < W and 0 <= ny < H` for the
neighbor `(y, x) + d`. -/
def validNb (c : Ctx) (p : Cell) (d : ℤ × ℤ) : Prop :=
  0 ≤ (p.2 : ℤ) + d.2 ∧ (p.2 : ℤ) + d.2 < (c.W : ℤ) ∧
  0 ≤ (p.1 : ℤ) + d.1 ∧ (p.1 : ℤ) + d.1 < (c.H : ℤ)

instance validNb.decide (c : Ctx) (p : Cell) (d : ℤ × ℤ) :
    Decidable (validNb c p d) := by
  unfold validNb
  infer_instance

/-- The successful-relaxation update: write `ng` and the parent, and push
`(ng + h, ng, ny, nx)`. -/
def pushState (c : Ctx) (s : AState) (yx : Cell) (d : ℤ × ℤ) (gcur : ℕ) :
    AState :=
  let n := nbCell yx d
  let ng := gcur + stepS d * c.cost n.1 n.2
  { gs := fun p => if p = n then some ng else s.gs p
    par := fun p => if p = n then some yx else s.par p
    queue := s.queue ++ [⟨ng + hOct c n.1 n.2, ng, n.1, n.2⟩] }

/-- Relaxation of the single neighbor `(y, x) + d`: bounds check, walkable
check, then `ng = gscore[y, x] + step * cost[ny, nx]` and the strict
improvement test, updating score, parent and queue. -/
def relaxOne (c : Ctx) (s : AState) (yx : Cell) (d : ℤ × ℤ) : AState :=
  if validNb c yx d then
    if c.walk (nbCell yx d).1 (nbCell yx d).2 = 0 then s
    else
      match s.gs yx with
      | none => s
      | some gcur =>
        if ltInf (gcur + stepS d * c.cost (nbCell yx d).1 (nbCell yx d).2)
            (s.gs (nbCell yx d)) then
          pushState c s yx d gcur
        else s
  else s

/-- The `for dy, dx in NEI8` loop of one expansion. -/
def relaxAll (c : Ctx) (s : AState) (yx : Cell) : AState :=
  NEI8.foldl (fun st d => relaxOne c st yx d) s

/-- Path reconstruction: `path = [(y, x)]; while (y, x) != (sy, sx): follow
parents; reversed(path)` — built here front-first with an accumulator.  The
fuel (`H * W + 1` at the call site) covers any acyclic parent chain. -/
def recon (c : Ctx) (par : Cell → Option Cell) :
    ℕ → Cell → List Cell → Option (List Cell)
  | 0, _, _ => none
  | fuel + 1, cur, acc =>
    if cur = (c.sy, c.sx) then some (cur :: acc)
    else
      match par cur with
      | none => none
      | some b => recon c par fuel b (cur :: acc)

/-- The `while openq` loop: pop the smallest entry, return the
reconstructed path at the goal, otherwise relax the eight neighbors.
`none` is the fuel-exhaustion marker, proven unreachable for the fuel
used by `astar`; `some none` is the exhausted-queue "no path" result. -/
def loopA (c : Ctx) : ℕ → AState → Option (Option (List Cell))
  | 0, _ => none
  | fuel + 1, s =>
    match popMin s.queue with
    | none => some none
    | some (e, rest) =>
      if (e.y, e.x) = (c.gy, c.gx) then
        match recon c s.par (c.H * c.W + 1) (e.y, e.x) [] with
        | some p => some (some p)
        | none => none
      else
        loopA c fuel (relaxAll c { s with queue := rest } (e.y, e.x))

/-- The initial state: `gscore[sy, sx] = 0` and the queue holding
`(h(sy, sx), 0, sy, sx)`. -/
def s0 (c : Ctx) : AState :=
  { gs := fun p => if p = (c.sy, c.sx) then some 0 else none
    par := fun _ => none
    queue := [⟨hOct c c.sy c.sx, 0, c.sy, c.sx⟩] }

/-- Largest cost value on the grid. -/
def cmax (c : Ctx) : ℕ :=
  ((List.range c.H).map (fun y =>
    ((List.range c.W).map (fun x => c.cost y x)).foldr max 0)).foldr max 0

/-- An upper bound on any single scaled edge weight `step * cost`. -/
def wS (c : Ctx) : ℕ := DIAGS * cmax c

/-- An upper bound on any finite scaled gscore during the search. -/
def B (c : Ctx) : ℕ := c.H * c.W * wS c

/-- Enough fuel for the whole search: one unit above the initial value of
the termination potential (queue length plus per-cell score budget). -/
def bigFuel (c : Ctx) : ℕ := 2 + c.H * c.W * (B c + 1)

/-- `astar(cost, walkable, start, goal)`: `none` when an endpoint is out of
bounds or non-walkable, otherwise the popped-entry loop from the start
cell. -/
def astar (cost walk : ℕ → ℕ → ℕ) (H W : ℕ) (start goal : ℤ × ℤ) :
    Option (List Cell) :=
  if 0 ≤ start.2 ∧ start.2 < (W : ℤ) ∧ 0 ≤ start.1 ∧ start.1 < (H : ℤ) ∧
      0 ≤ goal.2 ∧ goal.2 < (W : ℤ) ∧ 0 ≤ goal.1 ∧ goal.1 < (H : ℤ) then
    let c : Ctx := ⟨cost, walk, H, W, start.1.toNat, start.2.toNat,
      goal.1.toNat, goal.2.toNat⟩
    if walk c.sy c.sx = 0 ∨ walk c.gy c.gx = 0 then none
    else
      match loopA c (bigFuel c) (s0 c) with
      | some r => r
      | none => none
  else none

/-- In-bounds predicate on cells. -/
def cellIn (c : Ctx) (p : Cell) : Prop := p.1 < c.H ∧ p.2 < c.W

/-- Two cells differ by at most 1 in each coordinate (an 8-connected step,
or equality). -/
def stepAdj (p q : Cell) : Prop :=
  ((p.1 : ℤ) - q.1).natAbs ≤ 1 ∧ ((p.2 : ℤ) - q.2).natAbs ≤ 1

/-- A valid route: consecutive cells 8-connected, every cell in bounds and
walkable on the given grid. -/
def ChainOK (walk : ℕ → ℕ → ℕ) (H W : ℕ) : List Cell → Prop
  | [] => True
  | [p] => p.1 < H ∧ p.2 < W ∧ walk p.1 p.2 ≠ 0
  | p :: q :: rest =>
    p.1 < H ∧ p.2 < W ∧ walk p.1 p.2 ≠ 0 ∧ stepAdj p q ∧
      ChainOK walk H W (q :: rest)

/-- An 8-connected walkable route between two cells. -/
def IsRoute (walk : ℕ → ℕ → ℕ) (H W : ℕ) (a b : Cell) (l : List Cell) :
    Prop :=
  l ≠ [] ∧ l.head? = some a ∧ l.getLast? = some b ∧ ChainOK walk H W l

/-- Validity of the context built by `astar` after its two checks. -/
structure CtxOK (c : Ctx) : Prop where
  syH : c.sy < c.H
  sxW : c.sx < c.W
  gyH : c.gy < c.H
  gxW : c.gx < c.W
  ws : c.walk c.sy c.sx ≠ 0
  wg : c.walk c.gy c.gx ≠ 0

/-- The in-bounds cells, as a finset (proof-side only). -/
def cellsFinset (c : Ctx) : Finset Cell :=
  Finset.range c.H ×ˢ Finset.range c.W

/-- Number of cells with a finite gscore. -/
def finCount (c : Ctx) (s : AState) : ℕ :=
  ((cellsFinset c).filter (fun p => s.gs p ≠ none)).card

/-- Per-cell contribution to the termination potential. -/
def pot (c : Ctx) (s : AState) (p : Cell) : ℕ :=
  match s.gs p with
  | none => B c + 1
  | some v => v

/-- The termination potential: queue length plus remaining score budget. -/
def psi (c : Ctx) (s : AState) : ℕ :=
  s.queue.length + ∑ p ∈ cellsFinset c, pot c s p

/-- The loop invariant of the A* search. -/
structure Inv (c : Ctx) (s : AState) : Prop where
  qBound : ∀ e ∈ s.queue, s.gs (e.y, e.x) ≠ none
  qF : ∀ e ∈ s.queue, e.f = e.g + hOct c e.y e.x
  gsStart : s.gs (c.sy, c.sx) = some 0
  gsCell : ∀ p, s.gs p ≠ none → cellIn c p
  gsWalk : ∀ p, s.gs p ≠ none → c.walk p.1 p.2 ≠ 0
  gsBound : ∀ p v, s.gs p = some v → v ≤ finCount c s * wS c
  parAdj : ∀ p b, s.par p = some b → s.gs p ≠ none ∧ s.gs b ≠ none ∧
    ∃ d ∈ NEI8, (p.1 : ℤ) = (b.1 : ℤ) + d.1 ∧ (p.2 : ℤ) = (b.2 : ℤ) + d.2
  parNone : ∀ p, s.gs p ≠ none → s.par p = none → p = (c.sy, c.sx)
  parRank : ∃ τ : Cell → ℕ, ∀ p b, s.par p = some b →
    ∃ vb vp, s.gs b = some vb ∧ s.gs p = some vp ∧
      (vb < vp ∨ (vb = vp ∧ τ b < τ p))
  comp : ∀ p, s.gs p ≠ none →
    (∃ e ∈ s.queue, (e.y, e.x) = p ∧ some e.g = s.gs p) ∨
    (p ≠ (c.gy, c.gx) ∧ ∀ d ∈ NEI8, validNb c p d →
      c.walk (nbCell p d).1 (nbCell p d).2 ≠ 0 → s.gs (nbCell p d) ≠ none)

/-- The fields of `Inv` that each single relaxation preserves (the queue
completeness field `comp` is only restored at the end of a full
expansion). -/
structure InvA (c : Ctx) (s : AState) : Prop where
  qBound : ∀ e ∈ s.queue, s.gs (e.y, e.x) ≠ none
  qF : ∀ e ∈ s.queue, e.f = e.g + hOct c e.y e.x
  gsStart : s.gs (c.sy, c.sx) = some 0
  gsCell : ∀ p, s.gs p ≠ none → cellIn c p
  gsWalk : ∀ p, s.gs p ≠ none → c.walk p.1 p.2 ≠ 0
  gsBound : ∀ p v, s.gs p = some v → v ≤ finCount c s * wS c
  parAdj : ∀ p b, s.par p = some b → s.gs p ≠ none ∧ s.gs b ≠ none ∧
    ∃ d ∈ NEI8, (p.1 : ℤ) = (b.1 : ℤ) + d.1 ∧ (p.2 : ℤ) = (b.2 : ℤ) + d.2
  parNone : ∀ p, s.gs p ≠ none → s.par p = none → p = (c.sy, c.sx)
  parRank : ∃ τ : Cell → ℕ, ∀ p b, s.par p = some b →
    ∃ vb vp, s.gs b = some vb ∧ s.gs p = some vp ∧
      (vb < vp ∨ (vb = vp ∧ τ b < τ p))

/-- Strict order on the `(gscore, timestamp)` ranking keys: only finite
scores compare. -/
def keyLt : Option ℕ × ℕ → Option ℕ × ℕ → Prop
  | (some va, ta), (some vb, tb) => va < vb ∨ (va = vb ∧ ta < tb)
  | _, _ => False

instance keyLt.decide (a b : Option ℕ × ℕ) : Decidable (keyLt a b) := by
  rcases a with ⟨_ | va, ta⟩ <;> rcases b with ⟨_ | vb, tb⟩ <;>
    unfold keyLt <;> infer_instance

/-- Rank of a cell under the `(gscore, τ)` key: number of in-bounds cells
with strictly smaller key. -/
def rankOf (c : Ctx) (s : AState) (τ : Cell → ℕ) (z : Cell) : ℕ :=
  ((cellsFinset c).filter
    (fun p => keyLt (s.gs p, τ p) (s.gs z, τ z))).card

end Nav

namespace Metrics

theorem init_WF (e k : String) (bq : ℤ) (d : ℚ) : (Agg.init e k bq d).WF := by
  refine ⟨?_, le_max_left 1 d, ?_, ?_, ?_, ?_, ?_⟩ <;>
    simp [Agg.init]

theorem binW_pos {a : Agg} (h : a.WF) : 0 < a.binW := by
  obtain ⟨h1, h2, -⟩ := h
  have hb : (0 : ℚ) < (a.bins : ℚ) := by exact_mod_cast h1
  exact div_pos (lt_of_lt_of_le one_pos h2) hb

theorem binIdx_lt_bins {a : Agg} (h : 1 ≤ a.bins) (t : ℚ) :
    a.binIdx t < a.bins := by
  have : min (a.bins - 1) (Int.toNat ⌊max 0 t / a.binW⌋) ≤ a.bins - 1 :=
    min_le_left _ _
  unfold Agg.binIdx
  omega

theorem binIdx_mono {a : Agg} (h : a.WF) {t t' : ℚ} (ht : t ≤ t') :
    a.binIdx t ≤ a.binIdx t' := by
  have hw := binW_pos h
  have h1 : max 0 t / a.binW ≤ max 0 t' / a.binW :=
    div_le_div_of_nonneg_right (max_le_max le_rfl ht) hw.le
  have h2 : ⌊max 0 t / a.binW⌋ ≤ ⌊max 0 t' / a.binW⌋ := Int.floor_le_floor h1
  unfold Agg.binIdx
  omega

theorem bumpNat_length (l : List ℕ) (i : ℕ) : (bumpNat l i).length = l.length :=
  List.length_set l i _

theorem addAt_length (l : List ℚ) (i : ℕ) (v : ℚ) :
    (addAt l i v).length = l.length := List.length_set l i _

theorem recordDecision_WF {a : Agg} (h : a.WF) (t : ℚ) :
    (a.recordDecision t).WF := by
  obtain ⟨h1, h2, h3, h4, h5, h6, h7⟩ := h
  exact ⟨h1, h2, by simpa [Agg.recordDecision, bumpNat_length], h4, h5, h6, h7⟩

theorem recordArrival_WF {a : Agg} (h : a.WF) (cat : String) (pl tv t : ℚ) :
    (a.recordArrival cat pl tv t).WF := by
  obtain ⟨h1, h2, h3, h4, h5, h6, h7⟩ := h
  exact ⟨h1, h2, h3, by simpa [Agg.recordArrival, bumpNat_length],
    by simpa [Agg.recordArrival, addAt_length],
    by simpa [Agg.recordArrival, addAt_length], h7⟩

theorem recordPurchase_WF {a : Agg} (h : a.WF) (amt t : ℚ) :
    (a.recordPurchase amt t).WF := by
  obtain ⟨h1, h2, h3, h4, h5, h6, h7⟩ := h
  exact ⟨h1, h2, h3, h4, h5, h6,
    by simpa [Agg.recordPurchase, addAt_length]⟩

theorem startRun_WF {a : Agg} (h : a.WF) (n : ℤ) : (a.startRun n).WF := h

theorem startRun_agent_pos (a : Agg) (n : ℤ) :
    1 ≤ (a.startRun n).agent_count := by
  simp only [Agg.startRun]
  omega

/-- Reading a mapped range list at an in-range index. -/
theorem getD_range_map (f : ℕ → ℚ) (n i : ℕ) (h : i < n) :
    ((List.range n).map f).getD i 0 = f i := by
  have hlen : i < ((List.range n).map f).length := by simpa using h
  rw [List.getD_eq_getElem _ _ hlen]
  simp

theorem clamp100_nonneg (x : ℚ) : 0 ≤ max 0 (min 1 x) * 100 :=
  mul_nonneg (le_max_left 0 _) (by norm_num)

theorem clamp100_le (x : ℚ) : max 0 (min 1 x) * 100 ≤ 100 := by
  have h1 : max (0:ℚ) (min 1 x) ≤ 1 := max_le zero_le_one (min_le_left 1 x)
  calc max (0:ℚ) (min 1 x) * 100 ≤ 1 * 100 :=
        mul_le_mul_of_nonneg_right h1 (by norm_num)
    _ = 100 := one_mul 100

/-- C10: `MetricsAggregator` is total at its recording interface: the
constructor coerces `bins` to `max(1, bins)` and `duration_s` to
`max(1.0, duration_s)`, so the bin width is positive, and for every rational
timestamp `t` (negative or exceeding the duration) the computed bin index
lies in `[0, bins-1]`; the recording methods index within bounds and keep
every per-bin vector at length `bins`. -/
theorem C10_recording_totality (e k : String) (binsArg : ℤ) (durArg : ℚ)
    (t : ℚ) (a : Agg) (h : a.WF) (cat : String) (pl tv amt : ℚ) :
    (Agg.init e k binsArg durArg).WF ∧
    0 < (Agg.init e k binsArg durArg).binW ∧
    0 < a.binW ∧
    a.binIdx t < a.bins ∧
    a.binIdx t < a.decisions.length ∧
    a.binIdx t < a.arrivals.length ∧
    a.binIdx t < a.spend.length ∧
    (a.recordDecision t).WF ∧
    (a.recordArrival cat pl tv t).WF ∧
    (a.recordPurchase amt t).WF := by
  have hi := init_WF e k binsArg durArg
  have hb := binIdx_lt_bins h.1 t
  obtain ⟨h1, h2, h3, h4, h5, h6, h7⟩ := h
  exact ⟨hi, binW_pos hi, binW_pos ⟨h1, h2, h3, h4, h5, h6, h7⟩, hb,
    h3 ▸ hb, h4 ▸ hb, h7 ▸ hb,
    recordDecision_WF ⟨h1, h2, h3, h4, h5, h6, h7⟩ t,
    recordArrival_WF ⟨h1, h2, h3, h4, h5, h6, h7⟩ cat pl tv t,
    recordPurchase_WF ⟨h1, h2, h3, h4, h5, h6, h7⟩ amt t⟩

theorem C10_recording_totality_witness :
    (Agg.init "e" "env1" (-3) (-7)).WF ∧
    0 < (Agg.init "e" "env1" (-3) (-7)).binW ∧
    0 < (Agg.init "x" "env2" 3 12).binW ∧
    (Agg.init "x" "env2" 3 12).binIdx 99 < (Agg.init "x" "env2" 3 12).bins ∧
    (Agg.init "x" "env2" 3 12).binIdx 99 <
      (Agg.init "x" "env2" 3 12).decisions.length ∧
    (Agg.init "x" "env2" 3 12).binIdx 99 <
      (Agg.init "x" "env2" 3 12).arrivals.length ∧
    (Agg.init "x" "env2" 3 12).binIdx 99 <
      (Agg.init "x" "env2" 3 12).spend.length ∧
    ((Agg.init "x" "env2" 3 12).recordDecision 99).WF ∧
    ((Agg.init "x" "env2" 3 12).recordArrival "cafe" 4 2 99).WF ∧
    ((Agg.init "x" "env2" 3 12).recordPurchase 5 99).WF :=
  C10_recording_totality "e" "env1" (-3) (-7) 99 (Agg.init "x" "env2" 3 12)
    (init_WF "x" "env2" 3 12) "cafe" 4 2 5

/-- C3: for every aggregator state with at least one agent (as guaranteed by
`start_run`) and every bin `i`, `summarize_scenario` produces the efficiency
series with
`efficiency[i] = 100 * clamp(arrivals[i]/agents - 0.05*walk_cells[i]/(agents*dist_scale), 0, 1)`
where `dist_scale = max(200, sum(walk_cells)/agents)`, hence
`efficiency[i] ∈ [0, 100]`. -/
theorem C3_efficiency_formula (a : Agg) (baseline : Option Agg)
    (msqrt : ℚ → ℚ) (hag : 1 ≤ a.agent_count) (i : ℕ) (hi : i < a.bins) :
    ∃ s : Series, a.summarize baseline msqrt = some s ∧
      s.efficiency.getD i 0 =
        100 * max 0 (min 1 ((a.arrivals.getD i 0 : ℚ) / (a.agent_count : ℚ) -
          (5 / 100) * (a.walk_cells.getD i 0 /
            ((a.agent_count : ℚ) *
              max 200 (a.walk_cells.sum / (a.agent_count : ℚ)))))) ∧
      0 ≤ s.efficiency.getD i 0 ∧ s.efficiency.getD i 0 ≤ 100 := by
  have hne : a.agent_count ≠ 0 := by omega
  simp only [Agg.summarize, if_neg hne]
  refine ⟨_, rfl, ?_, ?_, ?_⟩
  · rw [getD_range_map _ _ _ hi]
    by_cases hq : a.walk_cells.sum / (a.agent_count : ℚ) = 0
    · rw [if_pos hq, hq, max_self,
        max_eq_left (by norm_num : (0:ℚ) ≤ 200)]
      exact mul_comm _ _
    · rw [if_neg hq]
      exact mul_comm _ _
  · rw [getD_range_map _ _ _ hi]
    exact clamp100_nonneg _
  · rw [getD_range_map _ _ _ hi]
    exact clamp100_le _

theorem C3_efficiency_formula_witness :
    1 ≤ c3agg.agent_count ∧ 0 < c3agg.bins ∧
    (∃ s : Series, c3agg.summarize none (fun q => q) = some s ∧
      s.efficiency.getD 0 0 =
        100 * max 0 (min 1 ((c3agg.arrivals.getD 0 0 : ℚ) /
            (c3agg.agent_count : ℚ) -
          (5 / 100) * (c3agg.walk_cells.getD 0 0 /
            ((c3agg.agent_count : ℚ) *
              max 200 (c3agg.walk_cells.sum / (c3agg.agent_count : ℚ)))))) ∧
      0 ≤ s.efficiency.getD 0 0 ∧ s.efficiency.getD 0 0 ≤ 100) :=
  ⟨by decide, by decide,
    C3_efficiency_formula c3agg none (fun q => q) (by decide) 0 (by decide)⟩

/-- The cost series of a self-baselined summary, in closed form. -/
theorem summarize_cost_self (a : Agg) (msqrt : ℚ → ℚ)
    (hag : a.agent_count ≠ 0) (i : ℕ) (hi : i < a.bins) :
    ∃ s : Series, a.summarize (some a) msqrt = some s ∧
      s.cost.getD i 0 =
        (if (1 / 1000000 : ℚ) ≤ a.spend.getD i 0 then 0
         else 100 * ((1 / 1000000 : ℚ) - a.spend.getD i 0) / (1 / 1000000)) := by
  simp only [Agg.summarize, if_neg hag]
  refine ⟨_, rfl, ?_⟩
  rw [getD_range_map _ _ _ hi]
  by_cases h : (1 / 1000000 : ℚ) ≤ a.spend.getD i 0
  · rw [if_pos h, max_eq_right h, sub_self, mul_zero, zero_div]
  · rw [if_neg h, max_eq_left (le_of_not_le h)]

/-- C5 counterexample: summarizing a fresh aggregator (one agent, nothing
spent) against itself as baseline yields `cost[0] = 100`, not `0`: the code
compares `spend[i]` with `max(1e-6, baseline.spend[i])`, which differ when
the spend is below the `1e-6` floor. -/
theorem C5_self_baseline_counterexample :
    (c5agg.summarize (some c5agg) (fun _ => 0)).map (fun s => s.cost.getD 0 0)
      = some 100 ∧ (100 : ℚ) ≠ 0 := by
  obtain ⟨s, hs, hc⟩ := summarize_cost_self c5agg (fun _ => 0) (by decide) 0
    (by decide)
  refine ⟨?_, by norm_num⟩
  rw [hs, Option.map_some']
  have hsp : c5agg.spend.getD 0 0 = 0 := rfl
  rw [hc, hsp]
  norm_num

/-- C5 (amended): summarizing an aggregator against itself yields
`cost[i] = 0` exactly for the bins whose spend reaches the `1e-6` floor;
a bin with `spend[i] < 1e-6` instead yields
`100 * (1e-6 - spend[i]) / 1e-6` (in particular `100` when `spend[i] = 0`). -/
theorem C5_self_baseline_cost (a : Agg) (msqrt : ℚ → ℚ)
    (hag : a.agent_count ≠ 0) (i : ℕ) (hi : i < a.bins) :
    ∃ s : Series, a.summarize (some a) msqrt = some s ∧
      s.cost.getD i 0 =
        (if (1 / 1000000 : ℚ) ≤ a.spend.getD i 0 then 0
         else 100 * ((1 / 1000000 : ℚ) - a.spend.getD i 0) / (1 / 1000000)) :=
  summarize_cost_self a msqrt hag i hi

theorem C5_self_baseline_cost_witness :
    c5agg.agent_count ≠ 0 ∧ 0 < c5agg.bins ∧
    (∃ s : Series, c5agg.summarize (some c5agg) (fun _ => 0) = some s ∧
      s.cost.getD 0 0 =
        (if (1 / 1000000 : ℚ) ≤ c5agg.spend.getD 0 0 then 0
         else 100 * ((1 / 1000000 : ℚ) - c5agg.spend.getD 0 0) /
           (1 / 1000000))) :=
  ⟨by decide, by decide,
    C5_self_baseline_cost c5agg (fun _ => 0) (by decide) 0 (by decide)⟩

theorem getD_set (l : List ℕ) (k j v : ℕ) (hk : k < l.length) :
    (l.set k v).getD j 0 = if j = k then v else l.getD j 0 := by
  rw [List.getD_eq_getElem?_getD, List.getD_eq_getElem?_getD,
    List.getElem?_set]
  rcases eq_or_ne j k with rfl | hne
  · simp [hk]
  · simp [Ne.symm hne, hne]

theorem getD_bumpNat (l : List ℕ) (k j : ℕ) (hk : k < l.length) :
    (bumpNat l k).getD j 0 = l.getD j 0 + if j = k then 1 else 0 := by
  unfold bumpNat
  rw [getD_set l k j _ hk]
  rcases eq_or_ne j k with rfl | hne
  · simp
  · simp [hne]

theorem psum_bumpNat (l : List ℕ) (k : ℕ) (hk : k < l.length) (i : ℕ) :
    psum (bumpNat l k) i = psum l i + if k ≤ i then 1 else 0 := by
  unfold psum
  rw [Finset.sum_congr rfl (fun j _ => getD_bumpNat l k j hk),
    Finset.sum_add_distrib, Finset.sum_ite_eq' (Finset.range (i + 1)) k
      (fun _ => 1)]
  simp [Finset.mem_range, Nat.lt_succ_iff]

theorem replay_binIdx (a : Agg) (t u : ℚ) :
    (a.recordDecision t).binIdx u = a.binIdx u := rfl

theorem replay_WF {a : Agg} (h : a.WF) (e : Ev) : (replay a e).WF := by
  rcases e with ⟨cat, t, _ | ⟨tv, pl, _ | amt⟩⟩
  · exact recordDecision_WF h t
  · exact recordArrival_WF (recordDecision_WF h t) _ _ _ _
  · exact recordPurchase_WF
      (recordArrival_WF (recordDecision_WF h t) _ _ _ _) _ _

theorem replay_psum {a : Agg} (h : a.WF) (e : Ev)
    (hpos : ∀ ar, e.arrival = some ar → 0 < ar.travel)
    (hinv : ∀ i, psum a.arrivals i ≤ psum a.decisions i) (i : ℕ) :
    psum (replay a e).arrivals i ≤ psum (replay a e).decisions i := by
  obtain ⟨h1, h2, h3, h4, h5, h6, h7⟩ := h
  rcases e with ⟨cat, t, arrival⟩
  have hdle : a.binIdx t < a.decisions.length := h3 ▸ binIdx_lt_bins h1 t
  rcases arrival with _ | ⟨tv, pl, pu⟩
  · show psum a.arrivals i ≤ psum (bumpNat a.decisions (a.binIdx t)) i
    rw [psum_bumpNat a.decisions _ hdle i]
    exact le_trans (hinv i) (Nat.le_add_right _ _)
  · have htr : 0 < tv := hpos ⟨tv, pl, pu⟩ rfl
    have hmono : a.binIdx t ≤ a.binIdx (t + tv) :=
      binIdx_mono ⟨h1, h2, h3, h4, h5, h6, h7⟩ (le_add_of_nonneg_right htr.le)
    have hale : a.binIdx (t + tv) < a.arrivals.length :=
      h4 ▸ binIdx_lt_bins h1 _
    have key : psum (bumpNat a.arrivals (a.binIdx (t + tv))) i ≤
        psum (bumpNat a.decisions (a.binIdx t)) i := by
      rw [psum_bumpNat a.arrivals _ hale i, psum_bumpNat a.decisions _ hdle i]
      have hif : (if a.binIdx (t + tv) ≤ i then 1 else 0) ≤
          (if a.binIdx t ≤ i then (1:ℕ) else 0) := by
        by_cases hc : a.binIdx (t + tv) ≤ i
        · rw [if_pos hc, if_pos (le_trans hmono hc)]
        · simp [hc]
      exact Nat.add_le_add (hinv i) hif
    rcases pu with _ | amt
    · exact key
    · exact key

theorem runTrace_psum {a : Agg} (h : a.WF) (tr : List Ev)
    (hpos : ∀ e ∈ tr, ∀ ar, e.arrival = some ar → 0 < ar.travel)
    (hinv : ∀ i, psum a.arrivals i ≤ psum a.decisions i) :
    (runTrace a tr).WF ∧
      ∀ i, psum (runTrace a tr).arrivals i ≤
        psum (runTrace a tr).decisions i := by
  induction tr generalizing a with
  | nil => exact ⟨h, hinv⟩
  | cons e rest ih =>
    have h' := replay_WF h e
    have hinv' := replay_psum h e (hpos e (List.mem_cons_self e rest)) hinv
    exact ih h' (fun x hx => hpos x (List.mem_cons_of_mem e hx)) hinv'

theorem c4trace_pos :
    ∀ ev ∈ c4trace, ∀ ar, ev.arrival = some ar → 0 < ar.travel := by
  rintro ev hev ar har
  simp only [c4trace, List.mem_singleton] at hev
  subst hev
  obtain rfl : (⟨5, 30, none⟩ : Arr) = ar := Option.some.inj har
  decide


theorem c4state :
    (runTrace c4agg c4trace).arrivals.getD 1 0 = 1 ∧
    (runTrace c4agg c4trace).decisions.getD 1 0 = 0 ∧
    (runTrace c4agg c4trace).bins = 25 := by
  have hbw : c4agg.binW = 24 / 5 := by
    show (max 1 120 : ℚ) / ((25 : ℕ) : ℚ) = 24 / 5
    rw [max_eq_right (by norm_num : (1:ℚ) ≤ 120)]
    norm_num
  have h0 : c4agg.binIdx 4 = 0 := by
    unfold Agg.binIdx
    rw [hbw, max_eq_right (by norm_num : (0:ℚ) ≤ 4)]
    have hf : ⌊(4:ℚ) / (24 / 5)⌋ = 0 := by norm_num [Int.floor_eq_iff]
    rw [hf]
    rfl
  have h1 : c4agg.binIdx 9 = 1 := by
    unfold Agg.binIdx
    rw [hbw, max_eq_right (by norm_num : (0:ℚ) ≤ 9)]
    have hf : ⌊(9:ℚ) / (24 / 5)⌋ = 1 := by norm_num [Int.floor_eq_iff]
    rw [hf]
    rfl
  have hrun : runTrace c4agg c4trace =
      (c4agg.recordDecision 4).recordArrival "cafe" 30 5 (4 + 5) := rfl
  have h45 : (4 : ℚ) + 5 = 9 := by norm_num
  rw [hrun]
  show (bumpNat (c4agg.recordDecision 4).arrivals
        ((c4agg.recordDecision 4).binIdx (4 + 5))).getD 1 0 = 1 ∧
      (bumpNat c4agg.decisions (c4agg.binIdx 4)).getD 1 0 = 0 ∧
      (25:ℕ) = 25
  rw [replay_binIdx, h45, h1, h0]
  exact ⟨rfl, rfl, rfl⟩

/-- C4 counterexample: the per-bin invariant `decisions[i] ≥ arrivals[i]`
fails on a state produced by a conforming event stream.  One decision at
4.0 s (bin 0 at bin width 4.8 s) with its arrival at 4.0 + 5.0 = 9.0 s
(bin 1) gives `arrivals[1] = 1 > 0 = decisions[1]`. -/
theorem C4_per_bin_counterexample :
    (∀ ev ∈ c4trace, ∀ ar, ev.arrival = some ar → 0 < ar.travel) ∧
    (runTrace c4agg c4trace).arrivals.getD 1 0 = 1 ∧
    (runTrace c4agg c4trace).decisions.getD 1 0 = 0 ∧
    ¬ (∀ i < (runTrace c4agg c4trace).bins,
        (runTrace c4agg c4trace).arrivals.getD i 0 ≤
          (runTrace c4agg c4trace).decisions.getD i 0) := by
  obtain ⟨ha, hd, hb⟩ := c4state
  refine ⟨c4trace_pos, ha, hd, ?_⟩
  intro hall
  have h1 := hall 1 (by rw [hb]; norm_num)
  rw [ha, hd] at h1
  exact absurd h1 (by norm_num)

/-- C4 (amended): the domination holds cumulatively rather than bin-by-bin.
For every aggregator built by the constructor and `start_run`, and every
event stream in which each arrival follows its decision by a positive
travel time, every prefix of `arrivals` is dominated by the same prefix of
`decisions` (and all counters are non-negative). -/
theorem C4_prefix_domination (e k : String) (binsArg nAg : ℤ) (durArg : ℚ)
    (tr : List Ev)
    (hpos : ∀ ev ∈ tr, ∀ ar, ev.arrival = some ar → 0 < ar.travel)
    (i : ℕ) :
    psum (runTrace ((Agg.init e k binsArg durArg).startRun nAg) tr).arrivals
        i ≤
      psum (runTrace ((Agg.init e k binsArg durArg).startRun nAg) tr).decisions
        i ∧
    0 ≤ (runTrace ((Agg.init e k binsArg durArg).startRun nAg) tr).arrivals.getD
        i 0 := by
  have hwf : ((Agg.init e k binsArg durArg).startRun nAg).WF :=
    startRun_WF (init_WF e k binsArg durArg) nAg
  have hinv : ∀ j,
      psum ((Agg.init e k binsArg durArg).startRun nAg).arrivals j ≤
      psum ((Agg.init e k binsArg durArg).startRun nAg).decisions j := by
    intro j
    unfold psum
    apply Finset.sum_le_sum
    intro x _
    simp [Agg.init, Agg.startRun, List.getD]
  exact ⟨(runTrace_psum hwf tr hpos hinv).2 i, Nat.zero_le _⟩

theorem C4_prefix_domination_witness :
    psum (runTrace ((Agg.init "e" "env1" 25 120).startRun 1) c4trace).arrivals
        3 ≤
      psum (runTrace ((Agg.init "e" "env1" 25 120).startRun 1)
        c4trace).decisions 3 ∧
    0 ≤ (runTrace ((Agg.init "e" "env1" 25 120).startRun 1)
        c4trace).arrivals.getD 3 0 :=
  C4_prefix_domination "e" "env1" 25 1 120 c4trace c4trace_pos 3

end Metrics

namespace Runner

/-- C9 (code bug): neither analytics write is atomic.  Both `_write_json`
(used by the experiment runner at end-of-run) and `stream_update` (used by
the live publisher on each periodic update) open the destination path
directly with `open(path, "w")` — truncating it — and stream the document
into it; no temporary file is written and no rename is performed, so a
concurrent reader can observe a half-written document. -/
theorem C9_write_not_atomic (path dirname payload : String) :
    FsOp.openWrite path ∈ writeJsonOps path dirname payload ∧
    FsOp.openWrite path ∈ streamUpdateOps path dirname payload ∧
    (∀ op ∈ writeJsonOps path dirname payload, op.isRename = false) ∧
    (∀ op ∈ streamUpdateOps path dirname payload, op.isRename = false) ∧
    ¬ AtomicWrite path (writeJsonOps path dirname payload) ∧
    ¬ AtomicWrite path (streamUpdateOps path dirname payload) := by
  refine ⟨?_, ?_, ?_, ?_, ?_, ?_⟩
  · simp [writeJsonOps]
  · simp [streamUpdateOps]
  · intro op hop
    simp only [writeJsonOps, List.mem_cons, List.mem_singleton,
      List.not_mem_nil, or_false] at hop
    rcases hop with rfl | rfl | rfl | rfl <;> rfl
  · intro op hop
    simp only [streamUpdateOps, List.mem_cons, List.mem_singleton,
      List.not_mem_nil, or_false] at hop
    rcases hop with rfl | rfl | rfl | rfl <;> rfl
  · rintro ⟨tmp, -, hmem, -⟩
    simp [writeJsonOps] at hmem
  · rintro ⟨tmp, -, hmem, -⟩
    simp [streamUpdateOps] at hmem

end Runner

namespace Nav

theorem pyStop_nonneg_eq {n : ℕ} {s : ℤ} (hs : 0 ≤ s) :
    pyStop n s = min n s.toNat := by
  unfold pyStop
  rw [if_neg (by omega)]

theorem findCol_some {w : ℕ → ℕ → ℕ} {y : ℕ} :
    ∀ {n xs x : ℕ}, findCol w y xs n = some x →
      xs ≤ x ∧ x < xs + n ∧ w y x = 1 := by
  intro n
  induction n with
  | zero => intro xs x h; simp [findCol] at h
  | succ n ih =>
    intro xs x h
    unfold findCol at h
    by_cases hw : w y xs = 1
    · rw [if_pos hw] at h
      cases h
      exact ⟨le_rfl, by omega, hw⟩
    · rw [if_neg hw] at h
      obtain ⟨h1, h2, h3⟩ := ih h
      exact ⟨by omega, by omega, h3⟩

theorem findCol_none {w : ℕ → ℕ → ℕ} {y : ℕ} :
    ∀ {n xs : ℕ}, findCol w y xs n = none →
      ∀ x, xs ≤ x → x < xs + n → w y x ≠ 1 := by
  intro n
  induction n with
  | zero => intro xs _ x h1 h2; omega
  | succ n ih =>
    intro xs h x h1 h2
    unfold findCol at h
    by_cases hw : w y xs = 1
    · rw [if_pos hw] at h; cases h
    · rw [if_neg hw] at h
      rcases eq_or_lt_of_le h1 with rfl | hlt
      · exact hw
      · exact ih h x hlt (by omega)

theorem findRow_some {w : ℕ → ℕ → ℕ} {xs xn : ℕ} :
    ∀ {n ys : ℕ} {q : ℕ × ℕ}, findRow w xs xn ys n = some q →
      ys ≤ q.1 ∧ q.1 < ys + n ∧ xs ≤ q.2 ∧ q.2 < xs + xn ∧ w q.1 q.2 = 1 := by
  intro n
  induction n with
  | zero => intro ys q h; simp [findRow] at h
  | succ n ih =>
    intro ys q h
    unfold findRow at h
    cases hc : findCol w ys xs xn with
    | some x =>
      rw [hc] at h
      cases h
      obtain ⟨h1, h2, h3⟩ := findCol_some hc
      exact ⟨le_rfl, by omega, h1, h2, h3⟩
    | none =>
      rw [hc] at h
      obtain ⟨h1, h2, h3, h4, h5⟩ := ih h
      exact ⟨by omega, by omega, h3, h4, h5⟩

theorem findRow_none {w : ℕ → ℕ → ℕ} {xs xn : ℕ} :
    ∀ {n ys : ℕ}, findRow w xs xn ys n = none →
      ∀ y x, ys ≤ y → y < ys + n → xs ≤ x → x < xs + xn → w y x ≠ 1 := by
  intro n
  induction n with
  | zero => intro ys _ y x h1 h2; omega
  | succ n ih =>
    intro ys h y x h1 h2 h3 h4
    unfold findRow at h
    cases hc : findCol w ys xs xn with
    | some x0 => rw [hc] at h; cases h
    | none =>
      rw [hc] at h
      rcases eq_or_lt_of_le h1 with rfl | hlt
      · exact findCol_none hc x h3 h4
      · exact ih h y x hlt (by omega) h3 h4

theorem boxFirst_some {w : ℕ → ℕ → ℕ} {H W : ℕ} {iy ix : ℤ} {r : ℕ}
    (hin : inB H W (iy, ix)) {p : ℕ × ℕ}
    (h : boxFirst w H W iy ix r = some p) :
    inB H W ((p.1 : ℤ), (p.2 : ℤ)) ∧ w p.1 p.2 = 1 ∧
      cheb (iy, ix) ((p.1 : ℤ), (p.2 : ℤ)) ≤ r := by
  obtain ⟨hy0, hy1, hx0, hx1⟩ := hin
  simp only [boxFirst] at h
  rw [pyStop_nonneg_eq (by omega), pyStop_nonneg_eq (by omega)] at h
  obtain ⟨h1, h2, h3, h4, h5⟩ := findRow_some h
  refine ⟨⟨by omega, by omega, by omega, by omega⟩, h5, ?_⟩
  simp only [cheb, inB] at *
  omega

theorem boxFirst_none {w : ℕ → ℕ → ℕ} {H W : ℕ} {iy ix : ℤ} {r : ℕ}
    (hin : inB H W (iy, ix)) (h : boxFirst w H W iy ix r = none) :
    ∀ p : ℤ × ℤ, inB H W p → walkAt w p → ¬(cheb (iy, ix) p ≤ r) := by
  obtain ⟨hy0, hy1, hx0, hx1⟩ := hin
  intro p hp hw hch
  obtain ⟨q1, q2, q3, q4⟩ := hp
  simp only [cheb] at hch
  simp only [boxFirst] at h
  rw [pyStop_nonneg_eq (by omega), pyStop_nonneg_eq (by omega)] at h
  have := findRow_none h p.1.toNat p.2.toNat (by omega) (by omega) (by omega)
    (by omega)
  exact this hw

theorem snapLoop_some {w : ℕ → ℕ → ℕ} {H W : ℕ} {iy ix : ℤ}
    (hin : inB H W (iy, ix)) :
    ∀ (k r : ℕ) (q : ℤ × ℤ), snapLoop w H W iy ix r k = some q →
      (∀ p, inB H W p → walkAt w p → r ≤ cheb (iy, ix) p) →
      inB H W q ∧ walkAt w q ∧ cheb (iy, ix) q + 1 ≤ r + k ∧
        ∀ p, inB H W p → walkAt w p → cheb (iy, ix) q ≤ cheb (iy, ix) p := by
  intro k
  induction k with
  | zero => intro r q h _; simp [snapLoop] at h
  | succ k ih =>
    intro r q h hprev
    unfold snapLoop at h
    cases hb : boxFirst w H W iy ix r with
    | some p =>
      rw [hb] at h
      cases h
      obtain ⟨hA, hB, hC⟩ := boxFirst_some hin hb
      refine ⟨hA, ?_, by omega, ?_⟩
      · simp [walkAt, hB]
      · intro p' hp' hw'
        exact le_trans hC (hprev p' hp' hw')
    | none =>
      rw [hb] at h
      have hnext : ∀ p, inB H W p → walkAt w p →
          r + 1 ≤ cheb (iy, ix) p := by
        intro p hp hw
        have h1 := hprev p hp hw
        have h2 := boxFirst_none hin hb p hp hw
        omega
      obtain ⟨a1, a2, a3, a4⟩ := ih (r + 1) q h hnext
      exact ⟨a1, a2, by omega, a4⟩

theorem snapLoop_none {w : ℕ → ℕ → ℕ} {H W : ℕ} {iy ix : ℤ}
    (hin : inB H W (iy, ix)) :
    ∀ (k r : ℕ), snapLoop w H W iy ix r k = none →
      (∀ p, inB H W p → walkAt w p → r ≤ cheb (iy, ix) p) →
      ∀ p, inB H W p → walkAt w p → r + k ≤ cheb (iy, ix) p := by
  intro k
  induction k with
  | zero => intro r _ hprev p hp hw; simpa using hprev p hp hw
  | succ k ih =>
    intro r h hprev p hp hw
    unfold snapLoop at h
    cases hb : boxFirst w H W iy ix r with
    | some p0 => rw [hb] at h; cases h
    | none =>
      rw [hb] at h
      have hnext : ∀ p, inB H W p → walkAt w p →
          r + 1 ≤ cheb (iy, ix) p := by
        intro p1 hp1 hw1
        have h1 := hprev p1 hp1 hw1
        have h2 := boxFirst_none hin hb p1 hp1 hw1
        omega
      have := ih (r + 1) h hnext p hp hw
      omega

/-- C2 counterexample: for an out-of-bounds cell the claim fails.  On a
5 × 1 grid whose only walkable cell is `(3, 0)`, snapping `(-3, 0)` with
`max_r = 1` returns `(3, 0)` at Chebyshev distance 6 > 1 — the slice stop
`min(H-1, iy+r) + 1 = -1` is negative and wraps to `H-1` under Python
slicing — even though no walkable cell lies within radius 1, where the
claim demands `none`. -/
theorem C2_snap_oob_counterexample :
    snap_to_walkable c2walk 5 1 (-3) 0 1 = some (3, 0) ∧
    cheb (-3, 0) (3, 0) = 6 ∧ ¬(cheb (-3, 0) (3, 0) ≤ 1) ∧
    (∀ p : ℤ × ℤ, inB 5 1 p → walkAt c2walk p → ¬(cheb (-3, 0) p ≤ 1)) := by
  refine ⟨by decide, by decide, by decide, ?_⟩
  rintro ⟨py, px⟩ ⟨h1, h2, h3, h4⟩ hw hch
  simp only [walkAt, c2walk] at hw
  simp only [cheb] at hch
  split at hw
  · omega
  · exact absurd hw (by norm_num)

/-- C2 (amended): the snap specification restricted to an in-bounds cell
`(iy, ix)` (for out-of-bounds cells negative slice indices can wrap, see
the counterexample): if the cell is walkable it is returned unchanged;
otherwise any returned cell is in bounds, walkable, within Chebyshev
distance `max_r`, and at minimal Chebyshev distance among all walkable
cells; `none` is returned exactly when no walkable cell lies within
`max_r`. -/
theorem C2_snap_spec (w : ℕ → ℕ → ℕ) (H W : ℕ) (iy ix : ℤ) (maxR : ℕ)
    (hin : inB H W (iy, ix)) (hr : 1 ≤ maxR) :
    (w iy.toNat ix.toNat = 1 →
      snap_to_walkable w H W iy ix maxR = some (iy, ix)) ∧
    (∀ q, snap_to_walkable w H W iy ix maxR = some q →
      inB H W q ∧ walkAt w q ∧ cheb (iy, ix) q ≤ maxR ∧
      ∀ p, inB H W p → walkAt w p → cheb (iy, ix) q ≤ cheb (iy, ix) p) ∧
    (snap_to_walkable w H W iy ix maxR = none →
      ∀ p, inB H W p → walkAt w p → maxR < cheb (iy, ix) p) := by
  obtain ⟨hy0, hy1, hx0, hx1⟩ := hin
  have hprev0 : w iy.toNat ix.toNat ≠ 1 →
      ∀ p, inB H W p → walkAt w p → 1 ≤ cheb (iy, ix) p := by
    intro hcw p hp hwp
    by_contra hlt
    push_neg at hlt
    have hz : cheb (iy, ix) p = 0 := by omega
    simp only [cheb] at hz
    have hpy : p.1 = iy := by omega
    have hpx : p.2 = ix := by omega
    simp only [walkAt, hpy, hpx] at hwp
    exact hcw hwp
  refine ⟨?_, ?_, ?_⟩
  · intro hw
    unfold snap_to_walkable
    rw [if_pos ⟨hx0, hx1, hy0, hy1, hw⟩]
  · intro q hq
    unfold snap_to_walkable at hq
    by_cases hc : 0 ≤ ix ∧ ix < (W : ℤ) ∧ 0 ≤ iy ∧ iy < (H : ℤ) ∧
        w iy.toNat ix.toNat = 1
    · rw [if_pos hc] at hq
      cases hq
      refine ⟨⟨hy0, hy1, hx0, hx1⟩, hc.2.2.2.2, ?_, ?_⟩
      · simp [cheb]
      · intro p _ _
        simp [cheb]
    · rw [if_neg hc] at hq
      have hcw : w iy.toNat ix.toNat ≠ 1 := fun hw =>
        hc ⟨hx0, hx1, hy0, hy1, hw⟩
      obtain ⟨a1, a2, a3, a4⟩ :=
        snapLoop_some ⟨hy0, hy1, hx0, hx1⟩ maxR 1 q hq (hprev0 hcw)
      exact ⟨a1, a2, by omega, a4⟩
  · intro hnone p hp hwp
    unfold snap_to_walkable at hnone
    by_cases hc : 0 ≤ ix ∧ ix < (W : ℤ) ∧ 0 ≤ iy ∧ iy < (H : ℤ) ∧
        w iy.toNat ix.toNat = 1
    · rw [if_pos hc] at hnone
      cases hnone
    · rw [if_neg hc] at hnone
      have hcw : w iy.toNat ix.toNat ≠ 1 := fun hw =>
        hc ⟨hx0, hx1, hy0, hy1, hw⟩
      have := snapLoop_none ⟨hy0, hy1, hx0, hx1⟩ maxR 1 hnone
        (hprev0 hcw) p hp hwp
      omega

theorem C2_snap_spec_witness :
    inB 5 1 ((3 : ℤ), (0 : ℤ)) ∧ 1 ≤ 1 ∧
    ((c2walk (3 : ℤ).toNat (0 : ℤ).toNat = 1 →
      snap_to_walkable c2walk 5 1 3 0 1 = some (3, 0)) ∧
    (∀ q, snap_to_walkable c2walk 5 1 3 0 1 = some q →
      inB 5 1 q ∧ walkAt c2walk q ∧ cheb (3, 0) q ≤ 1 ∧
      ∀ p, inB 5 1 p → walkAt c2walk p → cheb (3, 0) q ≤ cheb (3, 0) p) ∧
    (snap_to_walkable c2walk 5 1 3 0 1 = none →
      ∀ p, inB 5 1 p → walkAt c2walk p → 1 < cheb (3, 0) p)) :=
  ⟨⟨by decide, by decide, by decide, by decide⟩, by decide,
    C2_snap_spec c2walk 5 1 3 0 1 ⟨by decide, by decide, by decide, by decide⟩
      (by decide)⟩

end Nav

namespace Nav

theorem boxFirst_some_walk {w : ℕ → ℕ → ℕ} {H W : ℕ} {iy ix : ℤ} {r : ℕ}
    {p : ℕ × ℕ} (h : boxFirst w H W iy ix r = some p) : w p.1 p.2 = 1 := by
  simp only [boxFirst] at h
  exact (findRow_some h).2.2.2.2

theorem snapLoop_some_walk {w : ℕ → ℕ → ℕ} {H W : ℕ} {iy ix : ℤ} :
    ∀ (k r : ℕ) (q : ℤ × ℤ), snapLoop w H W iy ix r k = some q →
      ∃ pn : ℕ × ℕ, q = ((pn.1 : ℤ), (pn.2 : ℤ)) ∧ w pn.1 pn.2 = 1 := by
  intro k
  induction k with
  | zero => intro r q h; simp [snapLoop] at h
  | succ k ih =>
    intro r q h
    unfold snapLoop at h
    cases hb : boxFirst w H W iy ix r with
    | some p =>
      rw [hb] at h
      cases h
      exact ⟨p, rfl, boxFirst_some_walk hb⟩
    | none =>
      rw [hb] at h
      exact ih (r + 1) q h

end Nav

namespace Editor

/-- C6 counterexample: on a grid with no walkable cell, the POI appended
for a `poi_add` at `(0, 0)` carries `snapped = {iy: 0, ix: 0}` — a
non-walkable cell — instead of the null the invariant requires: the code
always stores the (possibly unsnapped) cell in `snapped`, never null. -/
theorem C6_post_snap_counterexample :
    apply_scenario_to_assets g6 [] sc6 = some (g6, [p6val]) ∧
    poiSnapped p6val =
      .obj [("iy", .num ((0 : ℤ) : ℚ)), ("ix", .num ((0 : ℤ) : ℚ))] ∧
    g6.walkable 0 0 = 0 ∧
    ¬ SnapInv g6.walkable p6val := by
  refine ⟨rfl, rfl, rfl, ?_⟩
  rintro (⟨sy, sx, hobj, hw⟩ | hnull)
  · simp only [g6] at hw
    exact absurd hw (by norm_num)
  · have hv : poiSnapped p6val =
        .obj [("iy", .num ((0 : ℤ) : ℚ)), ("ix", .num ((0 : ℤ) : ℚ))] := rfl
    rw [hv] at hnull
    exact Jv.noConfusion hnull

/-- C6 (amended): every POI appended for a `poi_add` entry has a non-null
`snapped = {iy, ix}` object; the snapped cell is walkable whenever the
placed cell was in-bounds walkable or the radius-20 box search found a
walkable cell, and otherwise (search exhausted) `snapped` holds the raw
placed cell, which may be non-walkable — `snapped` is never null. -/
theorem C6_appended_snap (w : ℕ → ℕ → ℕ) (H W : ℕ)
    (h01 : ∀ y x, w y x ≤ 1) (adds : List POIDef) (out : List Jv)
    (h : addedPois w H W adds = some out) :
    ∀ p ∈ out, poiSnapped p ≠ Jv.null ∧
      ((∃ sy sx : ℤ,
          poiSnapped p =
            .obj [("iy", .num (sy : ℚ)), ("ix", .num (sx : ℚ))] ∧
          w sy.toNat sx.toNat = 1) ∨
       (∃ sy sx : ℤ,
          poiSnapped p =
            .obj [("iy", .num (sy : ℚ)), ("ix", .num (sx : ℚ))] ∧
          Nav.snapLoop w H W sy sx 1 20 = none)) := by
  induction adds generalizing out with
  | nil =>
    cases h
    intro p hp
    simp at hp
  | cons pd rest ih =>
    unfold addedPois at h
    cases hc : placePoi pd H W with
    | none => rw [hc] at h; cases h
    | some c =>
      rw [hc] at h
      cases hrest : addedPois w H W rest with
      | none => rw [hrest] at h; cases h
      | some outRest =>
        rw [hrest] at h
        cases h
        intro p hp
        rcases List.mem_cons.mp hp with rfl | htail
        · have hsnap : poiSnapped
              (mkAddedPoi pd (editorSnap w H W c.1 c.2).1
                (editorSnap w H W c.1 c.2).2) =
              .obj [("iy", .num ((editorSnap w H W c.1 c.2).1 : ℚ)),
                    ("ix", .num ((editorSnap w H W c.1 c.2).2 : ℚ))] := rfl
          refine ⟨by rw [hsnap]; exact fun hx => Jv.noConfusion hx, ?_⟩
          by_cases hb : 0 ≤ c.2 ∧ c.2 < (W : ℤ) ∧ 0 ≤ c.1 ∧ c.1 < (H : ℤ) ∧
              ¬(w c.1.toNat c.2.toNat = 0)
          · have hq : editorSnap w H W c.1 c.2 = (c.1, c.2) := by
              unfold editorSnap
              rw [if_pos hb]
            left
            refine ⟨c.1, c.2, ?_, ?_⟩
            · rw [hsnap, hq]
            · have := h01 c.1.toNat c.2.toNat
              have hnz := hb.2.2.2.2
              omega
          · cases hs : Nav.snapLoop w H W c.1 c.2 1 20 with
            | some q =>
              have hq : editorSnap w H W c.1 c.2 = q := by
                unfold editorSnap
                rw [if_neg hb, hs]
              left
              obtain ⟨pn, rfl, hwpn⟩ := Nav.snapLoop_some_walk 20 1 q hs
              refine ⟨(pn.1 : ℤ), (pn.2 : ℤ), ?_, ?_⟩
              · rw [hsnap, hq]
              · simpa using hwpn
            | none =>
              have hq : editorSnap w H W c.1 c.2 = (c.1, c.2) := by
                unfold editorSnap
                rw [if_neg hb, hs]
              right
              refine ⟨c.1, c.2, ?_, hs⟩
              rw [hsnap, hq]
        · exact ih outRest hrest p htail

theorem C6_appended_snap_witness :
    (∀ y x : ℕ, g7.walkable y x ≤ 1) ∧
    (addedPois g7.walkable 2 2 [pd6] = some [mkAddedPoi pd6 0 0]) ∧
    (∀ p ∈ [mkAddedPoi pd6 0 0], poiSnapped p ≠ Jv.null ∧
      ((∃ sy sx : ℤ,
          poiSnapped p =
            .obj [("iy", .num (sy : ℚ)), ("ix", .num (sx : ℚ))] ∧
          g7.walkable sy.toNat sx.toNat = 1) ∨
       (∃ sy sx : ℤ,
          poiSnapped p =
            .obj [("iy", .num (sy : ℚ)), ("ix", .num (sx : ℚ))] ∧
          Nav.snapLoop g7.walkable 2 2 sy sx 1 20 = none))) :=
  ⟨fun _ _ => le_refl 1, rfl,
    C6_appended_snap g7.walkable 2 2 (fun _ _ => le_refl 1) [pd6]
      [mkAddedPoi pd6 0 0] rfl⟩

/-- C7: applying a scenario whose `poi_add` and `poi_update` are both empty
returns the baseline POI list unchanged (structural equality) and the four
copied grids identical to the baseline's. -/
theorem C7_empty_scenario (g : Grids) (pois : List Jv) (sc : Scenario)
    (h1 : sc.poi_add = []) (h2 : sc.poi_update = []) :
    apply_scenario_to_assets g pois sc = some (g, pois) := by
  unfold apply_scenario_to_assets
  rw [h1, h2]
  simp [addedPois, applyUpdates]

theorem C7_empty_scenario_witness :
    apply_scenario_to_assets g7 pois7 sc7 = some (g7, pois7) :=
  C7_empty_scenario g7 pois7 sc7 rfl rfl

end Editor

namespace Nav

theorem entR_refl (a : Entry) : entR a a := by
  unfold entR
  omega

theorem entR_total (a b : Entry) : entR a b ∨ entR b a := by
  unfold entR
  omega

theorem entR_trans {a b c : Entry} (h1 : entR a b) (h2 : entR b c) :
    entR a c := by
  unfold entR at *
  omega

theorem minFold_mem : ∀ (es : List Entry) (a : Entry),
    es.foldl (fun u v => if entR u v then u else v) a ∈ a :: es := by
  intro es
  induction es with
  | nil => intro a; simp
  | cons b es ih =>
    intro a
    simp only [List.foldl_cons]
    rcases List.mem_cons.mp (ih (if entR a b then a else b)) with h | h
    · rw [h]
      by_cases hab : entR a b
      · simp [hab]
      · simp [hab]
    · exact List.mem_cons_of_mem _ (List.mem_cons_of_mem _ h)

theorem minFold_le : ∀ (es : List Entry) (a : Entry) (x : Entry),
    x ∈ a :: es → entR (es.foldl (fun u v => if entR u v then u else v) a) x := by
  intro es
  induction es with
  | nil =>
    intro a x hx
    rcases List.mem_cons.mp hx with rfl | hx
    · exact entR_refl x
    · simp at hx
  | cons b es ih =>
    intro a x hx
    simp only [List.foldl_cons]
    have hma : entR (if entR a b then a else b) a := by
      by_cases hab : entR a b
      · rw [if_pos hab]; exact entR_refl a
      · rw [if_neg hab]
        rcases entR_total a b with h | h
        · exact absurd h hab
        · exact h
    have hmb : entR (if entR a b then a else b) b := by
      by_cases hab : entR a b
      · rw [if_pos hab]; exact hab
      · rw [if_neg hab]; exact entR_refl b
    have hfold : entR
        (es.foldl (fun u v => if entR u v then u else v)
          (if entR a b then a else b)) (if entR a b then a else b) :=
      ih _ _ (List.mem_cons_self _ _)
    rcases List.mem_cons.mp hx with rfl | hx
    · exact entR_trans hfold hma
    · rcases List.mem_cons.mp hx with rfl | hx
      · exact entR_trans hfold hmb
      · exact ih _ _ (List.mem_cons_of_mem _ hx)

theorem popMin_none_iff (q : List Entry) : popMin q = none ↔ q = [] := by
  cases q <;> simp [popMin]

theorem popMin_spec {q : List Entry} {e : Entry} {rest : List Entry}
    (h : popMin q = some (e, rest)) :
    e ∈ q ∧ rest = q.erase e ∧ ∀ x ∈ q, entR e x := by
  cases q with
  | nil => simp [popMin] at h
  | cons a es =>
    simp only [popMin, List.foldl_cons, if_pos (entR_refl a),
      Option.some.injEq, Prod.mk.injEq] at h
    obtain ⟨rfl, rfl⟩ := h
    exact ⟨minFold_mem es a, rfl, minFold_le es a⟩

theorem nei8_ne_zero : ∀ d ∈ NEI8, ¬(d.1 = 0 ∧ d.2 = 0) := by decide

theorem nei8_small : ∀ d ∈ NEI8, d.1.natAbs ≤ 1 ∧ d.2.natAbs ≤ 1 := by
  decide

theorem nei8_mem {dy dx : ℤ} (h1 : dy.natAbs ≤ 1) (h2 : dx.natAbs ≤ 1)
    (h3 : ¬(dy = 0 ∧ dx = 0)) : (dy, dx) ∈ NEI8 := by
  simp only [NEI8, List.mem_cons, List.not_mem_nil, or_false,
    Prod.mk.injEq]
  omega

theorem foldr_max_le {ns : List ℕ} {v : ℕ} (hv : v ∈ ns) :
    v ≤ ns.foldr max 0 := by
  induction ns with
  | nil => exact absurd hv (List.not_mem_nil v)
  | cons n ns ih =>
    rw [List.foldr_cons]
    rcases List.mem_cons.mp hv with rfl | hm
    · exact le_max_left v (ns.foldr max 0)
    · exact le_trans (ih hm) (le_max_right n (ns.foldr max 0))

theorem cost_le_cmax (c : Ctx) {y x : ℕ} (hy : y < c.H) (hx : x < c.W) :
    c.cost y x ≤ cmax c := by
  unfold cmax
  have h1 : c.cost y x ≤
      ((List.range c.W).map (fun v => c.cost y v)).foldr max 0 :=
    foldr_max_le (List.mem_map_of_mem _ (List.mem_range.mpr hx))
  have h2 : ((List.range c.W).map (fun v => c.cost y v)).foldr max 0 ∈
      (List.range c.H).map (fun u =>
        ((List.range c.W).map (fun v => c.cost u v)).foldr max 0) :=
    List.mem_map_of_mem _ (List.mem_range.mpr hy)
  exact le_trans h1 (foldr_max_le h2)

theorem stepS_le (d : ℤ × ℤ) : stepS d ≤ DIAGS := by
  unfold stepS DIAGS SCALE
  split <;> omega

theorem edge_le_wS (c : Ctx) {p : Cell} (hp1 : p.1 < c.H) (hp2 : p.2 < c.W)
    (d : ℤ × ℤ) : stepS d * c.cost p.1 p.2 ≤ wS c := by
  unfold wS
  exact Nat.mul_le_mul (stepS_le d) (cost_le_cmax c hp1 hp2)

theorem mem_cellsFinset {c : Ctx} {p : Cell} :
    p ∈ cellsFinset c ↔ p.1 < c.H ∧ p.2 < c.W := by
  unfold cellsFinset
  cases p
  simp [Finset.mem_product]

theorem card_cellsFinset (c : Ctx) : (cellsFinset c).card = c.H * c.W := by
  unfold cellsFinset
  simp [Finset.card_product]

end Nav

namespace Nav

theorem relaxOne_cases (c : Ctx) (s : AState) (yx : Cell) (d : ℤ × ℤ) :
    relaxOne c s yx d = s ∨
    ∃ gcur, s.gs yx = some gcur ∧ validNb c yx d ∧
      c.walk (nbCell yx d).1 (nbCell yx d).2 ≠ 0 ∧
      ltInf (gcur + stepS d * c.cost (nbCell yx d).1 (nbCell yx d).2)
        (s.gs (nbCell yx d)) ∧
      relaxOne c s yx d = pushState c s yx d gcur := by
  unfold relaxOne
  split
  · rename_i hv
    split
    · left
      rfl
    · rename_i hw
      split
      · left
        rfl
      · rename_i gcur hg
        split
        · rename_i hlt
          right
          exact ⟨gcur, hg, hv, hw, hlt, rfl⟩
        · left
          rfl
  · left
    rfl

theorem pushState_gs (c : Ctx) (s : AState) (yx : Cell) (d : ℤ × ℤ)
    (gcur : ℕ) (p : Cell) :
    (pushState c s yx d gcur).gs p =
      if p = nbCell yx d then
        some (gcur + stepS d * c.cost (nbCell yx d).1 (nbCell yx d).2)
      else s.gs p := rfl

theorem pushState_par (c : Ctx) (s : AState) (yx : Cell) (d : ℤ × ℤ)
    (gcur : ℕ) (p : Cell) :
    (pushState c s yx d gcur).par p =
      if p = nbCell yx d then some yx else s.par p := rfl

theorem pushState_queue (c : Ctx) (s : AState) (yx : Cell) (d : ℤ × ℤ)
    (gcur : ℕ) :
    (pushState c s yx d gcur).queue =
      s.queue ++
        [⟨gcur + stepS d * c.cost (nbCell yx d).1 (nbCell yx d).2 +
            hOct c (nbCell yx d).1 (nbCell yx d).2,
          gcur + stepS d * c.cost (nbCell yx d).1 (nbCell yx d).2,
          (nbCell yx d).1, (nbCell yx d).2⟩] := rfl

theorem nbCell_ne_self {c : Ctx} {yx : Cell} {d : ℤ × ℤ} (hd : d ∈ NEI8)
    (hv : validNb c yx d) : nbCell yx d ≠ yx := by
  have hz := nei8_ne_zero d hd
  obtain ⟨hv1, hv2, hv3, hv4⟩ := hv
  intro he
  have h1 : (((yx.1 : ℤ) + d.1).toNat : ℤ) = (yx.1 : ℤ) + d.1 :=
    Int.toNat_of_nonneg hv3
  have h2 : (((yx.2 : ℤ) + d.2).toNat : ℤ) = (yx.2 : ℤ) + d.2 :=
    Int.toNat_of_nonneg hv1
  have e1 : (((yx.1 : ℤ) + d.1).toNat : ℕ) = yx.1 := congrArg Prod.fst he
  have e2 : (((yx.2 : ℤ) + d.2).toNat : ℕ) = yx.2 := congrArg Prod.snd he
  apply hz
  omega

theorem relaxOne_gs_mono {c : Ctx} {s : AState} {yx : Cell} {d : ℤ × ℤ}
    {p : Cell} (h : s.gs p ≠ none) : (relaxOne c s yx d).gs p ≠ none := by
  rcases relaxOne_cases c s yx d with he | ⟨gcur, _, _, _, _, he⟩
  · rw [he]; exact h
  · rw [he, pushState_gs]
    by_cases hp : p = nbCell yx d
    · rw [if_pos hp]; exact Option.some_ne_none _
    · rw [if_neg hp]; exact h

theorem relaxOne_queue_sub {c : Ctx} {s : AState} {yx : Cell} {d : ℤ × ℤ} :
    ∀ e ∈ s.queue, e ∈ (relaxOne c s yx d).queue := by
  intro e he
  rcases relaxOne_cases c s yx d with h | ⟨gcur, _, _, _, _, h⟩
  · rw [h]; exact he
  · rw [h, pushState_queue]
    exact List.mem_append_left _ he

theorem relaxOne_self_gs {c : Ctx} {s : AState} {yx : Cell} {d : ℤ × ℤ}
    (hd : d ∈ NEI8) : (relaxOne c s yx d).gs yx = s.gs yx := by
  rcases relaxOne_cases c s yx d with h | ⟨gcur, _, hv, _, _, h⟩
  · rw [h]
  · rw [h, pushState_gs, if_neg (Ne.symm (nbCell_ne_self hd hv))]

theorem relaxOne_nb_finite {c : Ctx} {s : AState} {yx : Cell} (d : ℤ × ℤ)
    (hv : validNb c yx d)
    (hw : c.walk (nbCell yx d).1 (nbCell yx d).2 ≠ 0)
    (hg : s.gs yx ≠ none) : (relaxOne c s yx d).gs (nbCell yx d) ≠ none := by
  unfold relaxOne
  rw [if_pos hv, if_neg hw]
  split
  · rename_i hgv
    exact absurd hgv hg
  · rename_i gcur hgv
    split
    · rw [pushState_gs, if_pos rfl]
      exact Option.some_ne_none _
    · rename_i hlt
      cases hn : s.gs (nbCell yx d) with
      | none => rw [hn] at hlt; simp [ltInf] at hlt
      | some v => simp [hn]

theorem foldRelax_gs_mono (c : Ctx) (yx : Cell) :
    ∀ (l : List (ℤ × ℤ)) (s : AState) (p : Cell), s.gs p ≠ none →
      (l.foldl (fun st d => relaxOne c st yx d) s).gs p ≠ none := by
  intro l
  induction l with
  | nil => intro s p h; exact h
  | cons d l ih =>
    intro s p h
    exact ih (relaxOne c s yx d) p (relaxOne_gs_mono h)

theorem foldRelax_queue_sub (c : Ctx) (yx : Cell) :
    ∀ (l : List (ℤ × ℤ)) (s : AState), ∀ e ∈ s.queue,
      e ∈ (l.foldl (fun st d => relaxOne c st yx d) s).queue := by
  intro l
  induction l with
  | nil => intro s e he; exact he
  | cons d l ih =>
    intro s e he
    exact ih (relaxOne c s yx d) e (relaxOne_queue_sub e he)

theorem foldRelax_self_gs (c : Ctx) (yx : Cell) :
    ∀ (l : List (ℤ × ℤ)), (∀ x ∈ l, x ∈ NEI8) → ∀ (s : AState),
      (l.foldl (fun st d => relaxOne c st yx d) s).gs yx = s.gs yx := by
  intro l
  induction l with
  | nil => intro _ s; rfl
  | cons d l ih =>
    intro hsub s
    simp only [List.foldl_cons]
    rw [ih (fun x hx => hsub x (List.mem_cons_of_mem d hx)) _,
      relaxOne_self_gs (hsub d (List.mem_cons_self d l))]

theorem relaxAll_nb_finite {c : Ctx} {s : AState} {yx : Cell}
    (hg : s.gs yx ≠ none) :
    ∀ d ∈ NEI8, validNb c yx d →
      c.walk (nbCell yx d).1 (nbCell yx d).2 ≠ 0 →
      (relaxAll c s yx).gs (nbCell yx d) ≠ none := by
  suffices h : ∀ (l : List (ℤ × ℤ)), (∀ x ∈ l, x ∈ NEI8) →
      ∀ (s : AState), s.gs yx ≠ none → ∀ d ∈ l, validNb c yx d →
        c.walk (nbCell yx d).1 (nbCell yx d).2 ≠ 0 →
        (l.foldl (fun st d => relaxOne c st yx d) s).gs (nbCell yx d) ≠
          none by
    intro d hd hv hw
    exact h NEI8 (fun _ hx => hx) s hg d hd hv hw
  intro l
  induction l with
  | nil => intro _ s _ d hd; simp at hd
  | cons d0 l ih =>
    intro hsub s hg d hd hv hw
    simp only [List.foldl_cons]
    rcases List.mem_cons.mp hd with rfl | hd
    · exact foldRelax_gs_mono c yx l _ _ (relaxOne_nb_finite d hv hw hg)
    · exact ih (fun x hx => hsub x (List.mem_cons_of_mem d0 hx))
        (relaxOne c s yx d0)
        (by rw [relaxOne_self_gs (hsub d0 (List.mem_cons_self d0 l))]
            exact hg)
        d hd hv hw

theorem foldRelax_gs_fresh (c : Ctx) (yx : Cell) :
    ∀ (l : List (ℤ × ℤ)) (s : AState) (z : Cell),
      (l.foldl (fun st d => relaxOne c st yx d) s).gs z = s.gs z ∨
      (∃ e ∈ (l.foldl (fun st d => relaxOne c st yx d) s).queue,
        (e.y, e.x) = z ∧
        some e.g = (l.foldl (fun st d => relaxOne c st yx d) s).gs z) := by
  intro l
  induction l with
  | nil => intro s z; left; rfl
  | cons d l ih =>
    intro s z
    simp only [List.foldl_cons]
    rcases ih (relaxOne c s yx d) z with h | h
    · rcases relaxOne_cases c s yx d with he | ⟨gcur, hgv, hv, hw, hlt, he⟩
      · left
        rw [he] at h
        rw [he]
        exact h
      · by_cases hz : z = nbCell yx d
        · right
          subst hz
          refine ⟨⟨gcur + stepS d *
              c.cost (nbCell yx d).1 (nbCell yx d).2 +
              hOct c (nbCell yx d).1 (nbCell yx d).2,
            gcur + stepS d * c.cost (nbCell yx d).1 (nbCell yx d).2,
            (nbCell yx d).1, (nbCell yx d).2⟩, ?_, rfl, ?_⟩
          · apply foldRelax_queue_sub
            rw [he, pushState_queue]
            exact List.mem_append_right _ (List.mem_singleton_self _)
          · rw [h, he, pushState_gs, if_pos rfl]
        · left
          rw [h, he, pushState_gs, if_neg hz]
    · right
      exact h

end Nav

namespace Nav

theorem validNb_cellIn {c : Ctx} {p : Cell} {d : ℤ × ℤ}
    (hv : validNb c p d) : cellIn c (nbCell p d) := by
  obtain ⟨h1, h2, h3, h4⟩ := hv
  unfold nbCell cellIn
  constructor <;> simp only [] <;> omega

theorem nbCell_fst {p : Cell} {d : ℤ × ℤ} (h : 0 ≤ (p.1 : ℤ) + d.1) :
    ((nbCell p d).1 : ℤ) = (p.1 : ℤ) + d.1 := by
  unfold nbCell
  simp only []
  omega

theorem nbCell_snd {p : Cell} {d : ℤ × ℤ} (h : 0 ≤ (p.2 : ℤ) + d.2) :
    ((nbCell p d).2 : ℤ) = (p.2 : ℤ) + d.2 := by
  unfold nbCell
  simp only []
  omega

theorem finCount_le (c : Ctx) (s : AState) : finCount c s ≤ c.H * c.W := by
  unfold finCount
  calc ((cellsFinset c).filter (fun p => s.gs p ≠ none)).card ≤
      (cellsFinset c).card := Finset.card_filter_le _ _
    _ = c.H * c.W := card_cellsFinset c

theorem finCount_pushState (c : Ctx) (s : AState) (yx : Cell) (d : ℤ × ℤ)
    (gcur : ℕ) (hin : cellIn c (nbCell yx d)) :
    finCount c (pushState c s yx d gcur) =
      if s.gs (nbCell yx d) = none then finCount c s + 1
      else finCount c s := by
  unfold finCount
  have hset : (cellsFinset c).filter
        (fun p => (pushState c s yx d gcur).gs p ≠ none) =
      insert (nbCell yx d) ((cellsFinset c).filter (fun p => s.gs p ≠ none))
      := by
    ext p
    simp only [Finset.mem_filter, Finset.mem_insert, pushState_gs]
    constructor
    · rintro ⟨hp, hne⟩
      by_cases hpn : p = nbCell yx d
      · left
        exact hpn
      · right
        rw [if_neg hpn] at hne
        exact ⟨hp, hne⟩
    · rintro (rfl | ⟨hp, hne⟩)
      · refine ⟨mem_cellsFinset.mpr hin, ?_⟩
        rw [if_pos rfl]
        exact Option.some_ne_none _
      · refine ⟨hp, ?_⟩
        by_cases hpn : p = nbCell yx d
        · rw [if_pos hpn]
          exact Option.some_ne_none _
        · rw [if_neg hpn]
          exact hne
  rw [hset]
  by_cases hn : s.gs (nbCell yx d) = none
  · rw [if_pos hn, Finset.card_insert_of_not_mem]
    intro hmem
    exact absurd hn (Finset.mem_filter.mp hmem).2
  · rw [if_neg hn]
    have habs : insert (nbCell yx d)
        ((cellsFinset c).filter (fun p => s.gs p ≠ none)) =
        (cellsFinset c).filter (fun p => s.gs p ≠ none) :=
      Finset.insert_eq_self.mpr
        (Finset.mem_filter.mpr ⟨mem_cellsFinset.mpr hin, hn⟩)
    rw [habs]

theorem finCount_lt_of_none (c : Ctx) (s : AState) {n : Cell}
    (hin : cellIn c n) (hn : s.gs n = none) :
    finCount c s + 1 ≤ c.H * c.W := by
  unfold finCount
  have hss : (cellsFinset c).filter (fun p => s.gs p ≠ none) ⊂
      cellsFinset c := by
    rw [Finset.ssubset_iff_of_subset (Finset.filter_subset _ _)]
    exact ⟨n, mem_cellsFinset.mpr hin, by simp [Finset.mem_filter, hn]⟩
  have := Finset.card_lt_card hss
  rw [card_cellsFinset c] at this
  omega

theorem relaxOne_invA {c : Ctx} {s : AState} {yx : Cell} {d : ℤ × ℤ}
    (hd : d ∈ NEI8) (hyx : cellIn c yx) (h : InvA c s) :
    InvA c (relaxOne c s yx d) := by
  rcases relaxOne_cases c s yx d with he | ⟨gcur, hgv, hv, hw, hlt, he⟩
  · rw [he]
    exact h
  rw [he]
  have hnIn : cellIn c (nbCell yx d) := validNb_cellIn hv
  have hnyx : nbCell yx d ≠ yx := nbCell_ne_self hd hv
  have hnst : nbCell yx d ≠ (c.sy, c.sx) := by
    intro hEq
    have h0 : s.gs (nbCell yx d) = some 0 := by rw [hEq]; exact h.gsStart
    rw [h0] at hlt
    simp [ltInf] at hlt
  have hfc := finCount_pushState c s yx d gcur hnIn
  have hfc_le : finCount c s ≤ finCount c (pushState c s yx d gcur) := by
    rw [hfc]
    split <;> omega
  have hng_le : gcur + stepS d * c.cost (nbCell yx d).1 (nbCell yx d).2 ≤
      finCount c (pushState c s yx d gcur) * wS c := by
    have h1 : gcur ≤ finCount c s * wS c := h.gsBound yx gcur hgv
    have h2 : stepS d * c.cost (nbCell yx d).1 (nbCell yx d).2 ≤ wS c :=
      edge_le_wS c hnIn.1 hnIn.2 d
    cases hn : s.gs (nbCell yx d) with
    | none =>
      rw [hfc, if_pos hn]
      calc gcur + stepS d * c.cost (nbCell yx d).1 (nbCell yx d).2 ≤
          finCount c s * wS c + wS c := Nat.add_le_add h1 h2
        _ = (finCount c s + 1) * wS c := by ring
    | some v =>
      rw [hn] at hlt
      have hlt2 : gcur + stepS d * c.cost (nbCell yx d).1 (nbCell yx d).2 <
          v := hlt
      have h3 : v ≤ finCount c s * wS c := h.gsBound _ v hn
      rw [hfc, if_neg (by simp [hn])]
      omega
  refine ⟨?_, ?_, ?_, ?_, ?_, ?_, ?_, ?_, ?_⟩
  · intro e hq
    rw [pushState_queue] at hq
    rcases List.mem_append.mp hq with hq | hq
    · have := h.qBound e hq
      rw [pushState_gs]
      split
      · exact Option.some_ne_none _
      · exact this
    · rw [List.mem_singleton.mp hq]
      rw [pushState_gs,
        if_pos (show ((nbCell yx d).1, (nbCell yx d).2) = nbCell yx d
          from rfl)]
      exact Option.some_ne_none _
  · intro e hq
    rw [pushState_queue] at hq
    rcases List.mem_append.mp hq with hq | hq
    · exact h.qF e hq
    · rw [List.mem_singleton.mp hq]
  · rw [pushState_gs, if_neg (Ne.symm hnst)]
    exact h.gsStart
  · intro p hp
    rw [pushState_gs] at hp
    by_cases hpn : p = nbCell yx d
    · rw [hpn]
      exact hnIn
    · rw [if_neg hpn] at hp
      exact h.gsCell p hp
  · intro p hp
    rw [pushState_gs] at hp
    by_cases hpn : p = nbCell yx d
    · rw [hpn]
      exact hw
    · rw [if_neg hpn] at hp
      exact h.gsWalk p hp
  · intro p v hp
    rw [pushState_gs] at hp
    by_cases hpn : p = nbCell yx d
    · rw [if_pos hpn] at hp
      have := Option.some.inj hp
      omega
    · rw [if_neg hpn] at hp
      exact le_trans (h.gsBound p v hp) (Nat.mul_le_mul_right _ hfc_le)
  · intro p b hp
    rw [pushState_par] at hp
    by_cases hpn : p = nbCell yx d
    · rw [if_pos hpn] at hp
      obtain rfl : yx = b := Option.some.inj hp
      subst hpn
      refine ⟨?_, ?_, d, hd, ?_, ?_⟩
      · rw [pushState_gs, if_pos rfl]
        exact Option.some_ne_none _
      · rw [pushState_gs, if_neg (Ne.symm hnyx), hgv]
        exact Option.some_ne_none _
      · exact nbCell_fst (by obtain ⟨a, b2, c2, d2⟩ := hv; omega)
      · exact nbCell_snd (by obtain ⟨a, b2, c2, d2⟩ := hv; omega)
    · rw [if_neg hpn] at hp
      obtain ⟨h1, h2, hadj⟩ := h.parAdj p b hp
      refine ⟨?_, ?_, hadj⟩
      · rw [pushState_gs, if_neg hpn]
        exact h1
      · rw [pushState_gs]
        split
        · exact Option.some_ne_none _
        · exact h2
  · intro p hp hparn
    rw [pushState_par] at hparn
    by_cases hpn : p = nbCell yx d
    · rw [if_pos hpn] at hparn
      cases hparn
    · rw [if_neg hpn] at hparn
      rw [pushState_gs, if_neg hpn] at hp
      exact h.parNone p hp hparn
  · obtain ⟨τ, hτ⟩ := h.parRank
    refine ⟨fun p => if p = nbCell yx d
      then (cellsFinset c).sup τ + 1 else τ p, ?_⟩
    intro p b hp
    rw [pushState_par] at hp
    by_cases hpn : p = nbCell yx d
    · rw [if_pos hpn] at hp
      obtain rfl : yx = b := Option.some.inj hp
      subst hpn
      refine ⟨gcur,
        gcur + stepS d * c.cost (nbCell yx d).1 (nbCell yx d).2, ?_, ?_, ?_⟩
      · rw [pushState_gs, if_neg (Ne.symm hnyx)]
        exact hgv
      · rw [pushState_gs, if_pos rfl]
      · rcases Nat.eq_zero_or_pos
            (stepS d * c.cost (nbCell yx d).1 (nbCell yx d).2) with hz | hz
        · right
          refine ⟨by omega, ?_⟩
          simp only []
          rw [if_neg (Ne.symm hnyx)]
          simp only [if_true]
          have : τ yx ≤ (cellsFinset c).sup τ :=
            Finset.le_sup (mem_cellsFinset.mpr hyx)
          omega
        · left
          omega
    · rw [if_neg hpn] at hp
      obtain ⟨vb, vp, hb, hpv, hrel⟩ := hτ p b hp
      by_cases hbn : b = nbCell yx d
      · subst hbn
        refine ⟨gcur + stepS d * c.cost (nbCell yx d).1 (nbCell yx d).2,
          vp, ?_, ?_, ?_⟩
        · rw [pushState_gs, if_pos rfl]
        · rw [pushState_gs, if_neg hpn]
          exact hpv
        · left
          rw [hb] at hlt
          have : gcur + stepS d *
              c.cost (nbCell yx d).1 (nbCell yx d).2 < vb := hlt
          omega
      · refine ⟨vb, vp, ?_, ?_, ?_⟩
        · rw [pushState_gs, if_neg hbn]
          exact hb
        · rw [pushState_gs, if_neg hpn]
          exact hpv
        · simp only []
          rw [if_neg hbn, if_neg hpn]
          exact hrel

end Nav

namespace Nav

theorem Inv.toA {c : Ctx} {s : AState} (h : Inv c s) : InvA c s :=
  ⟨h.qBound, h.qF, h.gsStart, h.gsCell, h.gsWalk, h.gsBound, h.parAdj,
    h.parNone, h.parRank⟩

theorem invA_queue_sub {c : Ctx} {s : AState} (h : InvA c s)
    {qq : List Entry} (hsub : ∀ e ∈ qq, e ∈ s.queue) :
    InvA c { s with queue := qq } :=
  ⟨fun e he => h.qBound e (hsub e he), fun e he => h.qF e (hsub e he),
    h.gsStart, h.gsCell, h.gsWalk, h.gsBound, h.parAdj, h.parNone,
    h.parRank⟩

theorem foldRelax_invA (c : Ctx) (yx : Cell) (hyx : cellIn c yx) :
    ∀ (l : List (ℤ × ℤ)), (∀ x ∈ l, x ∈ NEI8) → ∀ s, InvA c s →
      InvA c (l.foldl (fun st d => relaxOne c st yx d) s) := by
  intro l
  induction l with
  | nil => intro _ s h; exact h
  | cons d l ih =>
    intro hsub s h
    exact ih (fun x hx => hsub x (List.mem_cons_of_mem d hx)) _
      (relaxOne_invA (hsub d (List.mem_cons_self d l)) hyx h)

theorem relaxOne_psi {c : Ctx} {s : AState} {yx : Cell} {d : ℤ × ℤ}
    (h : InvA c s) : psi c (relaxOne c s yx d) ≤ psi c s := by
  rcases relaxOne_cases c s yx d with he | ⟨gcur, hgv, hv, hw, hlt, he⟩
  · rw [he]
  rw [he]
  have hnIn : cellIn c (nbCell yx d) := validNb_cellIn hv
  have hmem : nbCell yx d ∈ cellsFinset c := mem_cellsFinset.mpr hnIn
  have hpot : gcur + stepS d * c.cost (nbCell yx d).1 (nbCell yx d).2 + 1 ≤
      pot c s (nbCell yx d) := by
    cases hn : s.gs (nbCell yx d) with
    | none =>
      have h1 : gcur ≤ finCount c s * wS c := h.gsBound yx gcur hgv
      have h2 : stepS d * c.cost (nbCell yx d).1 (nbCell yx d).2 ≤ wS c :=
        edge_le_wS c hnIn.1 hnIn.2 d
      have h3 : finCount c s + 1 ≤ c.H * c.W :=
        finCount_lt_of_none c s hnIn hn
      have h4 : (finCount c s + 1) * wS c ≤ c.H * c.W * wS c :=
        Nat.mul_le_mul_right _ h3
      have hpe : pot c s (nbCell yx d) = B c + 1 := by
        unfold pot
        rw [hn]
      rw [hpe]
      have h5 : gcur + stepS d * c.cost (nbCell yx d).1 (nbCell yx d).2 ≤
          B c := by
        unfold B
        calc gcur + stepS d * c.cost (nbCell yx d).1 (nbCell yx d).2 ≤
            finCount c s * wS c + wS c := Nat.add_le_add h1 h2
          _ = (finCount c s + 1) * wS c := by ring
          _ ≤ c.H * c.W * wS c := h4
      omega
    | some v =>
      rw [hn] at hlt
      have hv2 : gcur + stepS d * c.cost (nbCell yx d).1 (nbCell yx d).2 <
          v := hlt
      have hpe : pot c s (nbCell yx d) = v := by
        unfold pot
        rw [hn]
      rw [hpe]
      omega
  have hsum1 : ∑ p ∈ cellsFinset c, pot c (pushState c s yx d gcur) p =
      (∑ p ∈ cellsFinset c \ {nbCell yx d},
        pot c (pushState c s yx d gcur) p) +
      pot c (pushState c s yx d gcur) (nbCell yx d) :=
    Finset.sum_eq_sum_diff_singleton_add hmem _
  have hsum2 : ∑ p ∈ cellsFinset c, pot c s p =
      (∑ p ∈ cellsFinset c \ {nbCell yx d}, pot c s p) +
      pot c s (nbCell yx d) :=
    Finset.sum_eq_sum_diff_singleton_add hmem _
  have hcongr : ∑ p ∈ cellsFinset c \ {nbCell yx d},
      pot c (pushState c s yx d gcur) p =
      ∑ p ∈ cellsFinset c \ {nbCell yx d}, pot c s p := by
    apply Finset.sum_congr rfl
    intro p hp
    have hpn : p ≠ nbCell yx d := by
      intro hEq
      exact absurd (Finset.mem_sdiff.mp hp).2 (by simp [hEq])
    unfold pot
    rw [pushState_gs, if_neg hpn]
  have hpush_pot : pot c (pushState c s yx d gcur) (nbCell yx d) =
      gcur + stepS d * c.cost (nbCell yx d).1 (nbCell yx d).2 := by
    unfold pot
    rw [pushState_gs, if_pos rfl]
  have hql : (pushState c s yx d gcur).queue.length = s.queue.length + 1 := by
    rw [pushState_queue, List.length_append]
    rfl
  unfold psi
  rw [hsum1, hsum2, hcongr, hpush_pot, hql]
  omega

theorem foldRelax_psi (c : Ctx) (yx : Cell) (hyx : cellIn c yx) :
    ∀ (l : List (ℤ × ℤ)), (∀ x ∈ l, x ∈ NEI8) → ∀ s, InvA c s →
      psi c (l.foldl (fun st d => relaxOne c st yx d) s) ≤ psi c s := by
  intro l
  induction l with
  | nil => intro _ s _; exact le_rfl
  | cons d l ih =>
    intro hsub s h
    calc psi c (l.foldl (fun st d => relaxOne c st yx d)
          (relaxOne c s yx d)) ≤ psi c (relaxOne c s yx d) :=
        ih (fun x hx => hsub x (List.mem_cons_of_mem d hx)) _
          (relaxOne_invA (hsub d (List.mem_cons_self d l)) hyx h)
      _ ≤ psi c s := relaxOne_psi h

theorem step_psi {c : Ctx} {s : AState} (h : Inv c s) {e : Entry}
    {rest : List Entry} (hpop : popMin s.queue = some (e, rest)) :
    psi c (relaxAll c { s with queue := rest } (e.y, e.x)) < psi c s := by
  obtain ⟨hmem, hrest, hmin⟩ := popMin_spec hpop
  have hpos : 1 ≤ s.queue.length := List.length_pos.mpr
    (List.ne_nil_of_mem hmem)
  have hlen : rest.length = s.queue.length - 1 := by
    rw [hrest]
    exact List.length_erase_of_mem hmem
  have hsub : ∀ x ∈ rest, x ∈ s.queue := by
    rw [hrest]
    exact fun x hx => List.mem_of_mem_erase hx
  have hA : InvA c { s with queue := rest } :=
    invA_queue_sub h.toA hsub
  have hcell : cellIn c (e.y, e.x) := h.gsCell _ (h.qBound e hmem)
  have h2 : psi c (relaxAll c { s with queue := rest } (e.y, e.x)) ≤
      psi c { s with queue := rest } :=
    foldRelax_psi c (e.y, e.x) hcell NEI8 (fun _ hx => hx) _ hA
  have h3 : (∑ p ∈ cellsFinset c, pot c { s with queue := rest } p) =
      ∑ p ∈ cellsFinset c, pot c s p := rfl
  unfold psi at h2 ⊢
  rw [h3] at h2
  simp only [] at h2 ⊢
  omega

theorem step_inv {c : Ctx} {s : AState} (h : Inv c s) {e : Entry}
    {rest : List Entry} (hpop : popMin s.queue = some (e, rest))
    (hne : ¬((e.y, e.x) = (c.gy, c.gx))) :
    Inv c (relaxAll c { s with queue := rest } (e.y, e.x)) := by
  obtain ⟨hmem, hrest, hmin⟩ := popMin_spec hpop
  have hsub : ∀ x ∈ rest, x ∈ s.queue := by
    rw [hrest]
    exact fun x hx => List.mem_of_mem_erase hx
  have hgse : s.gs (e.y, e.x) ≠ none := h.qBound e hmem
  have hcell : cellIn c (e.y, e.x) := h.gsCell _ hgse
  have hA1 : InvA c { s with queue := rest } :=
    invA_queue_sub h.toA hsub
  have hA2 : InvA c (relaxAll c { s with queue := rest } (e.y, e.x)) :=
    foldRelax_invA c (e.y, e.x) hcell NEI8 (fun _ hx => hx) _ hA1
  refine ⟨hA2.qBound, hA2.qF, hA2.gsStart, hA2.gsCell, hA2.gsWalk,
    hA2.gsBound, hA2.parAdj, hA2.parNone, hA2.parRank, ?_⟩
  intro p hp
  by_cases hpe : p = (e.y, e.x)
  · right
    subst hpe
    refine ⟨hne, ?_⟩
    intro d hd hv hw
    exact relaxAll_nb_finite (by exact hgse) d hd hv hw
  · have hfr2 : (relaxAll c { s with queue := rest } (e.y, e.x)).gs p =
        s.gs p ∨
        (∃ e3 ∈ (relaxAll c { s with queue := rest } (e.y, e.x)).queue,
          (e3.y, e3.x) = p ∧
          some e3.g =
            (relaxAll c { s with queue := rest } (e.y, e.x)).gs p) :=
      foldRelax_gs_fresh c (e.y, e.x) NEI8 { s with queue := rest } p
    rcases hfr2 with hsame | hfresh
    · have hold : s.gs p ≠ none := by
        rw [hsame] at hp
        exact hp
      rcases h.comp p hold with ⟨e2, he2q, he2c, he2g⟩ | ⟨hgoal, hnb⟩
      · left
        have hne2 : e2 ≠ e := by
          intro hEq
          rw [hEq] at he2c
          exact hpe he2c.symm
        have he2rest : e2 ∈ rest := by
          rw [hrest]
          exact (List.mem_erase_of_ne hne2).mpr he2q
        refine ⟨e2, ?_, he2c, ?_⟩
        · exact foldRelax_queue_sub c (e.y, e.x) NEI8 _ e2 he2rest
        · rw [hsame]
          exact he2g
      · right
        refine ⟨hgoal, ?_⟩
        intro d hd hv hw
        exact foldRelax_gs_mono c (e.y, e.x) NEI8 _ _ (hnb d hd hv hw)
    · left
      exact hfresh

end Nav

namespace Nav

theorem keyLt_some {va ta vb tb : ℕ} :
    keyLt (some va, ta) (some vb, tb) ↔
      (va < vb ∨ (va = vb ∧ ta < tb)) := Iff.rfl

theorem keyLt_none_l {ta : ℕ} {b : Option ℕ × ℕ} :
    ¬keyLt (none, ta) b := by
  rcases b with ⟨_ | vb, tb⟩ <;> exact id

theorem keyLt_none_r {a : Option ℕ × ℕ} {tb : ℕ} :
    ¬keyLt a (none, tb) := by
  rcases a with ⟨_ | va, ta⟩ <;> exact id

theorem keyLt_irrefl (a : Option ℕ × ℕ) : ¬keyLt a a := by
  rcases a with ⟨_ | va, ta⟩
  · exact keyLt_none_l
  · rw [keyLt_some]
    omega

theorem keyLt_trans {a b e : Option ℕ × ℕ} (h1 : keyLt a b)
    (h2 : keyLt b e) : keyLt a e := by
  rcases a with ⟨_ | va, ta⟩
  · exact absurd h1 keyLt_none_l
  rcases b with ⟨_ | vb, tb⟩
  · exact absurd h2 keyLt_none_l
  rcases e with ⟨_ | ve, te⟩
  · exact absurd h2 keyLt_none_r
  rw [keyLt_some] at h1 h2 ⊢
  omega

theorem rankOf_lt {c : Ctx} {s : AState} {τ : Cell → ℕ} {b p : Cell}
    (hbIn : b ∈ cellsFinset c)
    (hk : keyLt (s.gs b, τ b) (s.gs p, τ p)) :
    rankOf c s τ b < rankOf c s τ p := by
  unfold rankOf
  have hsub : (cellsFinset c).filter
      (fun q => keyLt (s.gs q, τ q) (s.gs b, τ b)) ⊆
      (cellsFinset c).filter
      (fun q => keyLt (s.gs q, τ q) (s.gs p, τ p)) := by
    intro x hx
    rcases Finset.mem_filter.mp hx with ⟨hxin, hxk⟩
    exact Finset.mem_filter.mpr ⟨hxin, keyLt_trans hxk hk⟩
  have hex : ∃ x ∈ (cellsFinset c).filter
      (fun q => keyLt (s.gs q, τ q) (s.gs p, τ p)),
      x ∉ (cellsFinset c).filter
      (fun q => keyLt (s.gs q, τ q) (s.gs b, τ b)) := by
    refine ⟨b, Finset.mem_filter.mpr ⟨hbIn, hk⟩, ?_⟩
    intro hmem
    exact keyLt_irrefl _ (Finset.mem_filter.mp hmem).2
  exact Finset.card_lt_card
    ((Finset.ssubset_iff_of_subset hsub).mpr hex)

theorem rankOf_le (c : Ctx) (s : AState) (τ : Cell → ℕ) (z : Cell) :
    rankOf c s τ z ≤ c.H * c.W := by
  unfold rankOf
  calc ((cellsFinset c).filter
        (fun p => keyLt (s.gs p, τ p) (s.gs z, τ z))).card ≤
      (cellsFinset c).card := Finset.card_filter_le _ _
    _ = c.H * c.W := card_cellsFinset c

theorem getLast2_eq (a b : Cell) (l : List Cell) :
    (a :: b :: l).getLast? = (b :: l).getLast? := rfl

theorem recon_sound {c : Ctx} {s : AState} (h : Inv c s) :
    ∀ (fuel : ℕ) (cur : Cell) (acc l : List Cell) (last : Cell),
      s.gs cur ≠ none →
      ChainOK c.walk c.H c.W (cur :: acc) →
      (cur :: acc).getLast? = some last →
      recon c s.par fuel cur acc = some l →
      l.head? = some (c.sy, c.sx) ∧ l.getLast? = some last ∧
        ChainOK c.walk c.H c.W l := by
  intro fuel
  induction fuel with
  | zero =>
    intro cur acc l last _ _ _ hr
    exact absurd hr (by simp [recon])
  | succ fuel ih =>
    intro cur acc l last hg hch hlast hr
    unfold recon at hr
    by_cases hcs : cur = (c.sy, c.sx)
    · rw [if_pos hcs] at hr
      obtain rfl : cur :: acc = l := Option.some.inj hr
      exact ⟨by rw [List.head?_cons, hcs], hlast, hch⟩
    · rw [if_neg hcs] at hr
      cases hp : s.par cur with
      | none =>
        rw [hp] at hr
        exact absurd hr (by simp)
      | some b =>
        rw [hp] at hr
        obtain ⟨hgp, hgb, d, hd, h1, h2⟩ := h.parAdj cur b hp
        have hbIn : cellIn c b := h.gsCell b hgb
        have hbW : c.walk b.1 b.2 ≠ 0 := h.gsWalk b hgb
        obtain ⟨hs1, hs2⟩ := nei8_small d hd
        have hstep : stepAdj b cur := by
          unfold stepAdj
          omega
        have hch2 : ChainOK c.walk c.H c.W (b :: cur :: acc) :=
          ⟨hbIn.1, hbIn.2, hbW, hstep, hch⟩
        have hlast2 : (b :: cur :: acc).getLast? = some last := by
          rw [getLast2_eq]
          exact hlast
        exact ih b (cur :: acc) l last hgb hch2 hlast2 hr

theorem recon_total {c : Ctx} {s : AState} (h : Inv c s) {τ : Cell → ℕ}
    (hτ : ∀ p b, s.par p = some b →
      ∃ vb vp, s.gs b = some vb ∧ s.gs p = some vp ∧
        (vb < vp ∨ (vb = vp ∧ τ b < τ p))) :
    ∀ (fuel : ℕ) (cur : Cell) (acc : List Cell),
      s.gs cur ≠ none → rankOf c s τ cur < fuel →
      ∃ l, recon c s.par fuel cur acc = some l := by
  intro fuel
  induction fuel with
  | zero => intro cur acc _ hrk; omega
  | succ fuel ih =>
    intro cur acc hg hrk
    unfold recon
    by_cases hcs : cur = (c.sy, c.sx)
    · rw [if_pos hcs]
      exact ⟨_, rfl⟩
    · rw [if_neg hcs]
      cases hp : s.par cur with
      | none => exact absurd (h.parNone cur hg hp) hcs
      | some b =>
        obtain ⟨vb, vp, hvb, hvp, hlt⟩ := hτ cur b hp
        have hbg : s.gs b ≠ none := by
          rw [hvb]
          exact Option.some_ne_none vb
        have hbIn : b ∈ cellsFinset c :=
          mem_cellsFinset.mpr (h.gsCell b hbg)
        have hk : keyLt (s.gs b, τ b) (s.gs cur, τ cur) := by
          rw [hvb, hvp]
          exact hlt
        have hrb : rankOf c s τ b < rankOf c s τ cur := rankOf_lt hbIn hk
        obtain ⟨l, hl⟩ := ih b (cur :: acc) hbg (by omega)
        exact ⟨l, hl⟩

end Nav

namespace Nav

theorem loopA_succ (c : Ctx) (fuel : ℕ) (s : AState) :
    loopA c (fuel + 1) s =
      match popMin s.queue with
      | none => some none
      | some (e, rest) =>
        if (e.y, e.x) = (c.gy, c.gx) then
          match recon c s.par (c.H * c.W + 1) (e.y, e.x) [] with
          | some p => some (some p)
          | none => none
        else loopA c fuel (relaxAll c { s with queue := rest }
          (e.y, e.x)) := rfl

theorem loopA_pop_none {c : Ctx} {fuel : ℕ} {s : AState}
    (hq : popMin s.queue = none) : loopA c (fuel + 1) s = some none := by
  rw [loopA_succ, hq]

theorem loopA_pop_goal {c : Ctx} {fuel : ℕ} {s : AState} {e : Entry}
    {rest : List Entry} (hq : popMin s.queue = some (e, rest))
    (hg : (e.y, e.x) = (c.gy, c.gx)) :
    loopA c (fuel + 1) s =
      match recon c s.par (c.H * c.W + 1) (e.y, e.x) [] with
      | some p => some (some p)
      | none => none := by
  rw [loopA_succ, hq]
  exact if_pos hg

theorem loopA_pop_else {c : Ctx} {fuel : ℕ} {s : AState} {e : Entry}
    {rest : List Entry} (hq : popMin s.queue = some (e, rest))
    (hg : ¬((e.y, e.x) = (c.gy, c.gx))) :
    loopA c (fuel + 1) s =
      loopA c fuel (relaxAll c { s with queue := rest } (e.y, e.x)) := by
  rw [loopA_succ, hq]
  exact if_neg hg

theorem loopA_total {c : Ctx} :
    ∀ (fuel : ℕ) (s : AState), Inv c s → psi c s < fuel →
      ∃ r, loopA c fuel s = some r := by
  intro fuel
  induction fuel with
  | zero => intro s _ h; omega
  | succ fuel ih =>
    intro s hInv hpsi
    cases hq : popMin s.queue with
    | none => exact ⟨none, loopA_pop_none hq⟩
    | some pr =>
      obtain ⟨e, rest⟩ := pr
      obtain ⟨hmem, hrest, hmin⟩ := popMin_spec hq
      by_cases hg : (e.y, e.x) = (c.gy, c.gx)
      · obtain ⟨τ, hτ⟩ := hInv.parRank
        have hge : s.gs (e.y, e.x) ≠ none := hInv.qBound e hmem
        have hrk : rankOf c s τ (e.y, e.x) < c.H * c.W + 1 :=
          Nat.lt_succ_of_le (rankOf_le c s τ _)
        obtain ⟨l, hl⟩ := recon_total hInv hτ (c.H * c.W + 1)
          (e.y, e.x) [] hge hrk
        refine ⟨some l, ?_⟩
        rw [loopA_pop_goal hq hg, hl]
      · rw [loopA_pop_else hq hg]
        have hstep := step_psi hInv hq
        exact ih _ (step_inv hInv hq hg) (by omega)

theorem loopA_sound {c : Ctx} :
    ∀ (fuel : ℕ) (s : AState), Inv c s →
      ∀ l, loopA c fuel s = some (some l) →
        l.head? = some (c.sy, c.sx) ∧ l.getLast? = some (c.gy, c.gx) ∧
          ChainOK c.walk c.H c.W l := by
  intro fuel
  induction fuel with
  | zero =>
    intro s _ l hl
    exact absurd hl (by simp [loopA])
  | succ fuel ih =>
    intro s hInv l hl
    cases hq : popMin s.queue with
    | none =>
      rw [loopA_pop_none hq] at hl
      simp at hl
    | some pr =>
      obtain ⟨e, rest⟩ := pr
      obtain ⟨hmem, hrest, hmin⟩ := popMin_spec hq
      by_cases hg : (e.y, e.x) = (c.gy, c.gx)
      · rw [loopA_pop_goal hq hg] at hl
        have hge : s.gs (e.y, e.x) ≠ none := hInv.qBound e hmem
        have hin : cellIn c (e.y, e.x) := hInv.gsCell _ hge
        have hw : c.walk e.y e.x ≠ 0 := hInv.gsWalk _ hge
        cases hr : recon c s.par (c.H * c.W + 1) (e.y, e.x) [] with
        | none =>
          rw [hr] at hl
          exact absurd hl (by simp)
        | some p =>
          rw [hr] at hl
          obtain rfl : l = p := by
            have h2 : some (some p) = some (some l) := hl
            exact (Option.some.inj (Option.some.inj h2)).symm
          have hch1 : ChainOK c.walk c.H c.W [(e.y, e.x)] :=
            ⟨hin.1, hin.2, hw⟩
          obtain ⟨ha, hb, hc2⟩ := recon_sound hInv (c.H * c.W + 1)
            (e.y, e.x) [] l (e.y, e.x) hge hch1 rfl hr
          rw [hg] at hb
          exact ⟨ha, hb, hc2⟩
      · rw [loopA_pop_else hq hg] at hl
        exact ih _ (step_inv hInv hq hg) l hl

theorem chain_closed_gs {c : Ctx} {s : AState} (h : Inv c s)
    (hqe : s.queue = []) :
    ∀ l : List Cell, ChainOK c.walk c.H c.W l →
      ∀ a, l.head? = some a → s.gs a ≠ none →
      ∀ b, l.getLast? = some b → s.gs b ≠ none := by
  intro l
  induction l with
  | nil =>
    intro _ a ha
    simp at ha
  | cons p t ih =>
    intro hch a ha hga b hb
    obtain rfl : a = p := by
      rw [List.head?_cons] at ha
      exact (Option.some.inj ha).symm
    cases t with
    | nil =>
      obtain rfl : a = b := Option.some.inj hb
      exact hga
    | cons q t2 =>
      obtain ⟨hH, hW, hwa, hstep, hch2⟩ := hch
      have hqIn : q.1 < c.H ∧ q.2 < c.W ∧ c.walk q.1 q.2 ≠ 0 := by
        cases t2 with
        | nil => exact ⟨hch2.1, hch2.2.1, hch2.2.2⟩
        | cons r t3 => exact ⟨hch2.1, hch2.2.1, hch2.2.2.1⟩
      have hgq : s.gs q ≠ none := by
        by_cases hpq : q = a
        · rw [hpq]
          exact hga
        · rcases h.comp a hga with ⟨e, he, _, _⟩ | ⟨_, hnb⟩
          · rw [hqe] at he
            simp at he
          · obtain ⟨hd1, hd2⟩ := hstep
            have hdm : ((q.1 : ℤ) - a.1, (q.2 : ℤ) - a.2) ∈ NEI8 := by
              apply nei8_mem
              · omega
              · omega
              · rintro ⟨hz1, hz2⟩
                apply hpq
                have he1 : q.1 = a.1 := by omega
                have he2 : q.2 = a.2 := by omega
                exact Prod.ext he1 he2
            have hv : validNb c a ((q.1 : ℤ) - a.1, (q.2 : ℤ) - a.2) := by
              unfold validNb
              refine ⟨by omega, by omega, by omega, by omega⟩
            have hnbq : nbCell a ((q.1 : ℤ) - a.1, (q.2 : ℤ) - a.2) = q := by
              unfold nbCell
              have he1 : ((a.1 : ℤ) + ((q.1 : ℤ) - a.1)).toNat = q.1 := by
                omega
              have he2 : ((a.2 : ℤ) + ((q.2 : ℤ) - a.2)).toNat = q.2 := by
                omega
              exact Prod.ext he1 he2
            have hwq := hnb ((q.1 : ℤ) - a.1, (q.2 : ℤ) - a.2) hdm hv
              (by rw [hnbq]; exact hqIn.2.2)
            rw [hnbq] at hwq
            exact hwq
      have hb2 : (q :: t2).getLast? = some b := by
        rw [← getLast2_eq a]
        exact hb
      exact ih hch2 q rfl hgq b hb2

theorem no_route_of_empty {c : Ctx} {s : AState} (h : Inv c s)
    (hqe : s.queue = []) (l : List Cell) :
    ¬IsRoute c.walk c.H c.W (c.sy, c.sx) (c.gy, c.gx) l := by
  rintro ⟨hne, hhead, hlast, hch⟩
  have hgs : s.gs (c.sy, c.sx) ≠ none := by
    rw [h.gsStart]
    exact Option.some_ne_none 0
  have hgg : s.gs (c.gy, c.gx) ≠ none :=
    chain_closed_gs h hqe l hch _ hhead hgs _ hlast
  rcases h.comp _ hgg with ⟨e, he, _, _⟩ | ⟨hng, _⟩
  · rw [hqe] at he
    simp at he
  · exact hng rfl

theorem loopA_no_route {c : Ctx} :
    ∀ (fuel : ℕ) (s : AState), Inv c s → loopA c fuel s = some none →
      ∀ l, ¬IsRoute c.walk c.H c.W (c.sy, c.sx) (c.gy, c.gx) l := by
  intro fuel
  induction fuel with
  | zero =>
    intro s _ hl
    exact absurd hl (by simp [loopA])
  | succ fuel ih =>
    intro s hInv hl
    cases hq : popMin s.queue with
    | none => exact no_route_of_empty hInv ((popMin_none_iff _).mp hq)
    | some pr =>
      obtain ⟨e, rest⟩ := pr
      by_cases hg : (e.y, e.x) = (c.gy, c.gx)
      · rw [loopA_pop_goal hq hg] at hl
        cases hr : recon c s.par (c.H * c.W + 1) (e.y, e.x) [] with
        | none =>
          rw [hr] at hl
          exact absurd hl (by simp)
        | some p =>
          rw [hr] at hl
          exact absurd hl (by simp)
      · rw [loopA_pop_else hq hg] at hl
        exact ih _ (step_inv hInv hq hg) hl

end Nav

namespace Nav

theorem inv_s0 {c : Ctx} (hc : CtxOK c) : Inv c (s0 c) := by
  have hgs : ∀ p, (s0 c).gs p =
      if p = (c.sy, c.sx) then some 0 else none := fun _ => rfl
  have hpar : ∀ p, (s0 c).par p = none := fun _ => rfl
  have hq : (s0 c).queue = [⟨hOct c c.sy c.sx, 0, c.sy, c.sx⟩] := rfl
  refine ⟨?_, ?_, ?_, ?_, ?_, ?_, ?_, ?_, ?_, ?_⟩
  · intro e he
    rw [hq, List.mem_singleton] at he
    subst he
    rw [hgs]
    simp
  · intro e he
    rw [hq, List.mem_singleton] at he
    subst he
    simp
  · rw [hgs]
    simp
  · intro p hp
    rw [hgs] at hp
    by_cases h : p = (c.sy, c.sx)
    · subst h
      exact ⟨hc.syH, hc.sxW⟩
    · rw [if_neg h] at hp
      exact absurd rfl hp
  · intro p hp
    rw [hgs] at hp
    by_cases h : p = (c.sy, c.sx)
    · subst h
      exact hc.ws
    · rw [if_neg h] at hp
      exact absurd rfl hp
  · intro p v hp
    rw [hgs] at hp
    by_cases h : p = (c.sy, c.sx)
    · rw [if_pos h] at hp
      obtain rfl : (0 : ℕ) = v := Option.some.inj hp
      exact Nat.zero_le _
    · rw [if_neg h] at hp
      exact absurd hp (by simp)
  · intro p b hp
    rw [hpar] at hp
    exact absurd hp (by simp)
  · intro p hp _
    rw [hgs] at hp
    by_cases h : p = (c.sy, c.sx)
    · exact h
    · rw [if_neg h] at hp
      exact absurd rfl hp
  · refine ⟨fun _ => 0, fun p b hp => ?_⟩
    rw [hpar] at hp
    exact absurd hp (by simp)
  · intro p hp
    left
    have hps : p = (c.sy, c.sx) := by
      rw [hgs] at hp
      by_cases h : p = (c.sy, c.sx)
      · exact h
      · rw [if_neg h] at hp
        exact absurd rfl hp
    refine ⟨⟨hOct c c.sy c.sx, 0, c.sy, c.sx⟩, ?_, ?_, ?_⟩
    · rw [hq]
      exact List.mem_singleton.mpr rfl
    · rw [hps]
    · rw [hgs, if_pos hps]

theorem psi_s0_lt (c : Ctx) : psi c (s0 c) < bigFuel c := by
  have hpot : ∀ p ∈ cellsFinset c, pot c (s0 c) p ≤ B c + 1 := by
    intro p _
    unfold pot
    cases hg : (s0 c).gs p with
    | none => exact le_refl _
    | some v =>
      have hv : v = 0 := by
        have hgs : (s0 c).gs p =
            if p = (c.sy, c.sx) then some 0 else none := rfl
        rw [hgs] at hg
        by_cases h : p = (c.sy, c.sx)
        · rw [if_pos h] at hg
          exact (Option.some.inj hg).symm
        · rw [if_neg h] at hg
          exact absurd hg (by simp)
      show v ≤ B c + 1
      omega
  have hsum : ∑ p ∈ cellsFinset c, pot c (s0 c) p ≤
      c.H * c.W * (B c + 1) := by
    calc ∑ p ∈ cellsFinset c, pot c (s0 c) p ≤
        (cellsFinset c).card • (B c + 1) :=
          Finset.sum_le_card_nsmul _ _ _ hpot
      _ = c.H * c.W * (B c + 1) := by
          rw [smul_eq_mul, card_cellsFinset]
  have hlen : (s0 c).queue.length = 1 := rfl
  unfold psi bigFuel
  rw [hlen]
  omega

theorem astar_eq (cost walk : ℕ → ℕ → ℕ) (H W : ℕ) (start goal : ℤ × ℤ) :
    astar cost walk H W start goal =
      if 0 ≤ start.2 ∧ start.2 < (W : ℤ) ∧ 0 ≤ start.1 ∧
          start.1 < (H : ℤ) ∧ 0 ≤ goal.2 ∧ goal.2 < (W : ℤ) ∧
          0 ≤ goal.1 ∧ goal.1 < (H : ℤ) then
        if walk start.1.toNat start.2.toNat = 0 ∨
            walk goal.1.toNat goal.2.toNat = 0 then none
        else
          match loopA ⟨cost, walk, H, W, start.1.toNat, start.2.toNat,
              goal.1.toNat, goal.2.toNat⟩
              (bigFuel ⟨cost, walk, H, W, start.1.toNat, start.2.toNat,
                goal.1.toNat, goal.2.toNat⟩)
              (s0 ⟨cost, walk, H, W, start.1.toNat, start.2.toNat,
                goal.1.toNat, goal.2.toNat⟩) with
          | some r => r
          | none => none
      else none := rfl

/-- C1: `astar` returns `none` exactly when the start or the goal is out of
bounds, or `walkable` is `0` at the start or at the goal, or no walkable
8-connected route joins them; and whenever it returns a path, that path
starts at the start cell, ends at the goal cell, visits only in-bounds
walkable cells, and moves by 8-connected steps. -/
theorem C1_astar_spec (cost walk : ℕ → ℕ → ℕ) (H W : ℕ)
    (start goal : ℤ × ℤ) :
    (astar cost walk H W start goal = none ↔
      ¬(0 ≤ start.2 ∧ start.2 < (W : ℤ) ∧ 0 ≤ start.1 ∧
        start.1 < (H : ℤ) ∧ 0 ≤ goal.2 ∧ goal.2 < (W : ℤ) ∧
        0 ≤ goal.1 ∧ goal.1 < (H : ℤ) ∧
        walk start.1.toNat start.2.toNat ≠ 0 ∧
        walk goal.1.toNat goal.2.toNat ≠ 0 ∧
        ∃ l, IsRoute walk H W (start.1.toNat, start.2.toNat)
          (goal.1.toNat, goal.2.toNat) l)) ∧
    (∀ l, astar cost walk H W start goal = some l →
      IsRoute walk H W (start.1.toNat, start.2.toNat)
        (goal.1.toNat, goal.2.toNat) l) := by
  by_cases hb : (0 ≤ start.2 ∧ start.2 < (W : ℤ) ∧ 0 ≤ start.1 ∧
      start.1 < (H : ℤ) ∧ 0 ≤ goal.2 ∧ goal.2 < (W : ℤ) ∧
      0 ≤ goal.1 ∧ goal.1 < (H : ℤ))
  · obtain ⟨hb1, hb2, hb3, hb4, hb5, hb6, hb7, hb8⟩ := hb
    by_cases hw : walk start.1.toNat start.2.toNat = 0 ∨
        walk goal.1.toNat goal.2.toNat = 0
    · have hA : astar cost walk H W start goal = none := by
        rw [astar_eq,
          if_pos ⟨hb1, hb2, hb3, hb4, hb5, hb6, hb7, hb8⟩, if_pos hw]
      refine ⟨⟨fun _ hcontra => ?_, fun _ => hA⟩, fun l hl => ?_⟩
      · obtain ⟨_, _, _, _, _, _, _, _, hwns, hwng, _⟩ := hcontra
        rcases hw with h | h
        · exact hwns h
        · exact hwng h
      · rw [hA] at hl
        exact absurd hl (by simp)
    · obtain ⟨hws, hwg⟩ := not_or.mp hw
      set c : Ctx := ⟨cost, walk, H, W, start.1.toNat, start.2.toNat,
        goal.1.toNat, goal.2.toNat⟩ with hcdef
      have hC : CtxOK c := by
        refine ⟨?_, ?_, ?_, ?_, ?_, ?_⟩
        · show start.1.toNat < H
          omega
        · show start.2.toNat < W
          omega
        · show goal.1.toNat < H
          omega
        · show goal.2.toNat < W
          omega
        · show walk start.1.toNat start.2.toNat ≠ 0
          exact hws
        · show walk goal.1.toNat goal.2.toNat ≠ 0
          exact hwg
      have hroute_eq : ∀ l,
          IsRoute c.walk c.H c.W (c.sy, c.sx) (c.gy, c.gx) l ↔
          IsRoute walk H W (start.1.toNat, start.2.toNat)
            (goal.1.toNat, goal.2.toNat) l := fun _ => Iff.rfl
      obtain ⟨r, hr⟩ := loopA_total (bigFuel c) (s0 c) (inv_s0 hC)
        (psi_s0_lt c)
      have hA : astar cost walk H W start goal = r := by
        rw [astar_eq,
          if_pos ⟨hb1, hb2, hb3, hb4, hb5, hb6, hb7, hb8⟩, if_neg hw,
          ← hcdef, hr]
      cases r with
      | none =>
        refine ⟨⟨fun _ hcontra => ?_, fun _ => hA⟩, fun l hl => ?_⟩
        · obtain ⟨_, _, _, _, _, _, _, _, _, _, l, hrt⟩ := hcontra
          exact loopA_no_route (bigFuel c) (s0 c) (inv_s0 hC) hr l
            ((hroute_eq l).mpr hrt)
        · rw [hA] at hl
          exact absurd hl (by simp)
      | some p =>
        have hsound := loopA_sound (bigFuel c) (s0 c) (inv_s0 hC) p hr
        have hroute : IsRoute walk H W (start.1.toNat, start.2.toNat)
            (goal.1.toNat, goal.2.toNat) p := by
          apply (hroute_eq p).mp
          obtain ⟨hh, hlast, hch⟩ := hsound
          refine ⟨?_, hh, hlast, hch⟩
          intro hemp
          rw [hemp] at hh
          simp at hh
        refine ⟨⟨fun hnone _ => ?_, fun hnot => ?_⟩, fun l hl => ?_⟩
        · rw [hA] at hnone
          exact absurd hnone (by simp)
        · exfalso
          exact hnot ⟨hb1, hb2, hb3, hb4, hb5, hb6, hb7, hb8, hws, hwg,
            p, hroute⟩
        · rw [hA] at hl
          obtain rfl : p = l := Option.some.inj hl
          exact hroute
  · have hA : astar cost walk H W start goal = none := by
      rw [astar_eq, if_neg hb]
    refine ⟨⟨fun _ hcontra => ?_, fun _ => hA⟩, fun l hl => ?_⟩
    · obtain ⟨h1, h2, h3, h4, h5, h6, h7, h8, _, _, _⟩ := hcontra
      exact hb ⟨h1, h2, h3, h4, h5, h6, h7, h8⟩
    · rw [hA] at hl
      exact absurd hl (by simp)

theorem C1_astar_spec_witness :
    astar (fun _ _ => 1) (fun _ _ => 1) 2 2 (0, 0) (1, 1) =
      some [(0, 0), (1, 1)] ∧
    IsRoute (fun _ _ => 1) 2 2 (0, 0) (1, 1) [(0, 0), (1, 1)] :=
  ⟨by decide,
    (C1_astar_spec (fun _ _ => 1) (fun _ _ => 1) 2 2 (0, 0) (1, 1)).2
      [(0, 0), (1, 1)] (by decide)⟩

end Nav

namespace Nav

/-- With two queued entries of equal `f` and equal `g`, the pop returns the
one with the smaller `(y, x)` — here the one inserted SECOND — refuting
the claim that remaining ties are broken by insertion order. -/
theorem C8_tie_not_insertion_order :
    popMin [⟨5, 2, 3, 3⟩, ⟨5, 2, 1, 1⟩] =
      some (⟨5, 2, 1, 1⟩, [⟨5, 2, 3, 3⟩]) := by decide

/-- C8 (amended): the open queue pops the minimum under the lexicographic
order on the pushed tuples `(f, g, y, x)` — lowest `f` first, then lowest
`g`, then lowest `y`, then lowest `x`; the remaining ties are broken by the
cell coordinates baked into the tuple, not by insertion order.  In every
invariant-satisfying search state, each queued entry satisfies
`f = g + h` with `h` the octile heuristic. -/
theorem C8_queue_order (c : Ctx) (s : AState) (h : Inv c s) :
    (∀ e ∈ s.queue, e.f = e.g + hOct c e.y e.x) ∧
    (∀ e rest, popMin s.queue = some (e, rest) →
      e ∈ s.queue ∧ ∀ x ∈ s.queue, entR e x) :=
  ⟨h.qF, fun _ _ hp => ⟨(popMin_spec hp).1, (popMin_spec hp).2.2⟩⟩

theorem C8_queue_order_witness :
    ((⟨hOct ⟨fun _ _ => 1, fun _ _ => 1, 2, 2, 0, 0, 1, 1⟩ 0 0, 0, 0, 0⟩ :
        Entry) ∈
      (s0 ⟨fun _ _ => 1, fun _ _ => 1, 2, 2, 0, 0, 1, 1⟩).queue) ∧
    ∀ x ∈ (s0 ⟨fun _ _ => 1, fun _ _ => 1, 2, 2, 0, 0, 1, 1⟩).queue,
      entR ⟨hOct ⟨fun _ _ => 1, fun _ _ => 1, 2, 2, 0, 0, 1, 1⟩ 0 0,
        0, 0, 0⟩ x :=
  (C8_queue_order ⟨fun _ _ => 1, fun _ _ => 1, 2, 2, 0, 0, 1, 1⟩
      (s0 ⟨fun _ _ => 1, fun _ _ => 1, 2, 2, 0, 0, 1, 1⟩)
      (inv_s0 ⟨by decide, by decide, by decide, by decide, by decide,
        by decide⟩)).2
    ⟨hOct ⟨fun _ _ => 1, fun _ _ => 1, 2, 2, 0, 0, 1, 1⟩ 0 0, 0, 0, 0⟩ []
    (by decide)

end Nav
